import Mathlib

/-!
Verification of the tip-jar core: the text extractor (`parseContent` of the
Netlify function, `parseContent` of the Vercel function, `parseManualText` of
the web app) and the proportional allocator (`distributeTips` with
`applyRounding`), embedded shallowly from the TypeScript sources.

Modelling conventions:
* JavaScript numbers are modelled as exact rationals (`ℚ`); `Math.round` is
  `fun x => ⌊x + 1/2⌋` (round half toward positive infinity, the ECMAScript
  semantics on exact values) and `Number(x.toFixed(2))` is rounding at two
  decimal places with the same tie rule (`toFixed2`).
* JavaScript strings are modelled as `List Char`.  The three regular
  expressions of the sources are transcribed as deterministic matchers with
  the bounded local backtracking that ECMAScript leftmost-match semantics
  produce on these particular patterns; scanning an unanchored pattern over
  the whole input is `findFirst`.
* `x || 0` on a number is the identity for the values reachable here, and
  `totalHours ?? s` is `Option.getD`.
-/

/-- The ECMAScript whitespace class `\s` (also the character set removed by
`String.prototype.trim`). -/
def jsWs (c : Char) : Bool :=
  c.toNat == 0x20 || c.toNat == 0x9 || c.toNat == 0xa || c.toNat == 0xb ||
  c.toNat == 0xc || c.toNat == 0xd || c.toNat == 0xa0 || c.toNat == 0x1680 ||
  (decide (0x2000 ≤ c.toNat) && decide (c.toNat ≤ 0x200a)) ||
  c.toNat == 0x2028 || c.toNat == 0x2029 || c.toNat == 0x202f ||
  c.toNat == 0x205f || c.toNat == 0x3000 || c.toNat == 0xfeff

/-- The ECMAScript digit class `\d` = `[0-9]`. -/
def jsDigit (c : Char) : Bool :=
  decide (48 ≤ c.toNat) && decide (c.toNat ≤ 57)

/-- The character class `[A-Z0-9]` of the partner-global-id token. -/
def upperAlnum (c : Char) : Bool :=
  (decide (65 ≤ c.toNat) && decide (c.toNat ≤ 90)) || jsDigit c

/-- The ECMAScript `.` (without the `s` flag): any character that is not a
line terminator. -/
def jsDot (c : Char) : Bool :=
  !(c.toNat == 0xa || c.toNat == 0xd || c.toNat == 0x2028 || c.toNat == 0x2029)

/-- `Math.round` on an exact value: round to the nearest integer, ties toward
positive infinity. -/
def jsRound (q : ℚ) : ℤ := ⌊q + 1/2⌋

/-- `Number(x.toFixed(2))` on an exact value: round to two decimal places,
ties toward positive infinity (ECMAScript `toFixed` picks the larger
candidate on a tie). -/
def toFixed2 (q : ℚ) : ℚ := (jsRound (q * 100) : ℚ) / 100

/-- `String.prototype.trim`. -/
def jsTrim (l : List Char) : List Char :=
  ((l.dropWhile jsWs).reverse.dropWhile jsWs).reverse

/-! ## The allocator (`apps/web/src/utils/rounding.ts`) -/

/-- `type RoundingMode = 'none' | 'cent' | 'dime' | 'quarter' | 'dollar'`. -/
inductive RoundingMode where
  | none
  | cent
  | dime
  | quarter
  | dollar
deriving DecidableEq

/-- `const ROUNDING_UNIT: Record<RoundingMode, number>`. -/
def ROUNDING_UNIT : RoundingMode → ℚ
  | RoundingMode.none => 0
  | RoundingMode.cent => 1/100
  | RoundingMode.dime => 1/10
  | RoundingMode.quarter => 1/4
  | RoundingMode.dollar => 1

/-- `function applyRounding(value, mode)`: for `mode !== 'none'`,
`Math.round(value / unit) * unit`. -/
def applyRounding (value : ℚ) (mode : RoundingMode) : ℚ :=
  if mode = RoundingMode.none then value
  else (jsRound (value / ROUNDING_UNIT mode) : ℚ) * ROUNDING_UNIT mode

/-- The `Partner` record shape shared by the extractor and the allocator
(`apps/web/src/types.ts` and the structurally identical `ParsedPartner` of
the two serverless functions). -/
structure Partner where
  partner_number : List Char
  name : List Char
  partner_global_id : Option (List Char)
  hours : ℚ
deriving DecidableEq

/-- `type PartnerPayout = Partner & { payout: number; roundedPayout: number }`. -/
structure PartnerPayout extends Partner where
  payout : ℚ
  roundedPayout : ℚ
deriving DecidableEq

/-- The return shape of `distributeTips`. -/
structure DistributeResult where
  payouts : List PartnerPayout
  hourlyRate : ℚ
  roundingDelta : ℚ
deriving DecidableEq

/-- The fractional remainder `payout - Math.floor(payout)` used by the
reconciliation comparator. -/
def fracPart (q : ℚ) : ℚ := q - ⌊q⌋

/-- Stable insertion of one payout into a list already sorted by descending
fractional remainder: the comparator is `(a, b) => bFraction - aFraction`,
so an element moves past `p` only when its fraction is strictly larger. -/
def insertByFrac (p : PartnerPayout) : List PartnerPayout → List PartnerPayout
  | [] => [p]
  | q :: qs =>
    if fracPart q.payout > fracPart p.payout then q :: insertByFrac p qs
    else p :: q :: qs

/-- `[...payouts].sort((a, b) => bFraction - aFraction)`: a stable sort by
descending fractional remainder (ECMAScript `Array.prototype.sort` is
stable, and any stable sort agrees with this insertion sort for a
consistent comparator). -/
def sortByFracDesc (ps : List PartnerPayout) : List PartnerPayout :=
  ps.foldr insertByFrac []

/-- `function distributeTips({ partners, totalTips, rounding, totalHours })`.
The mutation `sorted[0].roundedPayout = ...` updates the object shared with
the returned `payouts` array, i.e. it replaces the first occurrence of the
sort head inside `payouts`. -/
def distributeTips (partners : List Partner) (totalTips : ℚ)
    (rounding : RoundingMode) (totalHours : Option ℚ) : DistributeResult :=
  let hoursSum := totalHours.getD (partners.foldl (fun sum partner => sum + partner.hours) 0)
  let safeHours := if hoursSum > 0 then hoursSum else 0
  let hourlyRate := if safeHours > 0 then totalTips / safeHours else 0
  let payouts : List PartnerPayout := partners.map (fun partner =>
    { toPartner := partner
      payout := partner.hours * hourlyRate
      roundedPayout := toFixed2 (applyRounding (partner.hours * hourlyRate) rounding) })
  if rounding = RoundingMode.none then
    { payouts := payouts.map (fun p => { p with roundedPayout := toFixed2 p.payout })
      hourlyRate := hourlyRate
      roundingDelta := 0 }
  else
    let roundedTotal := payouts.foldl (fun sum partner => sum + partner.roundedPayout) 0
    let delta := toFixed2 (totalTips - roundedTotal)
    if delta = 0 then
      { payouts := payouts, hourlyRate := hourlyRate, roundingDelta := 0 }
    else
      match sortByFracDesc payouts with
      | [] => { payouts := payouts, hourlyRate := hourlyRate, roundingDelta := delta }
      | top :: _ =>
        { payouts := payouts.replace top
            { top with roundedPayout := toFixed2 (top.roundedPayout + delta) }
          hourlyRate := hourlyRate
          roundingDelta := delta }

/-! ## The extractor: line splitting and the three scan patterns -/

/-- Split on `'\n'`; every occurrence is a separator, so the result is always
nonempty. -/
def splitNL : List Char → List (List Char)
  | [] => [[]]
  | c :: rest =>
    if c == '\n' then [] :: splitNL rest
    else
      match splitNL rest with
      | [] => [[c]]
      | h :: t => (c :: h) :: t

/-- Remove a single trailing `'\r'`, so that splitting on `'\n'` and then
stripping models `content.split(/\r?\n/)`. -/
def stripCR (l : List Char) : List Char :=
  if l.getLast? == some '\r' then l.dropLast else l

/-- `content.split(/\r?\n/)`. -/
def splitLines (content : List Char) : List (List Char) :=
  (splitNL content).map stripCR

/-- The numeric value of a digit string. -/
def digitsToNat (l : List Char) : Nat :=
  l.foldl (fun a c => 10 * a + (c.toNat - 48)) 0

/-- `Number.parseFloat` on the captured decimal strings (shape
`[0-9]+(\.[0-9]+)?`), exact. -/
def parseFloatQ (s : List Char) : ℚ :=
  let ip := s.takeWhile jsDigit
  let r := s.dropWhile jsDigit
  match r with
  | c :: fp =>
    if c == '.' then
      let fd := fp.takeWhile jsDigit
      (digitsToNat ip : ℚ) + (digitsToNat fd : ℚ) / (10 : ℚ) ^ fd.length
    else (digitsToNat ip : ℚ)
  | [] => (digitsToNat ip : ℚ)

/-- The trailing decimal of the partner row: anchored `[0-9]+(?:\.[0-9]{1,2})?$`
must consume the whole remainder. -/
def isDecimal (s : List Char) : Bool :=
  let ip := s.takeWhile jsDigit
  let r := s.dropWhile jsDigit
  !ip.isEmpty &&
    (match r with
     | [] => true
     | c :: fp => c == '.' && !fp.isEmpty && decide (fp.length ≤ 2) && fp.all jsDigit)

/-- The part of the partner row after the name capture:
`\s+(US[A-Z0-9]+)\s+([0-9]+(?:\.[0-9]{1,2})?)$`.  The greedy runs need no
global backtracking: taking fewer characters from a run leaves a character
the next item cannot match. -/
def partnerTail (s : List Char) : Option (List Char × List Char) :=
  let w2 := s.takeWhile jsWs
  let r := s.dropWhile jsWs
  if w2 = [] then none
  else
    match r with
    | u :: s2 :: r2 =>
      if u == 'U' && s2 == 'S' then
        let g := r2.takeWhile upperAlnum
        let r3 := r2.dropWhile upperAlnum
        if g = [] then none
        else
          let w3 := r3.takeWhile jsWs
          let r4 := r3.dropWhile jsWs
          if w3 = [] then none
          else if isDecimal r4 then some ('U' :: 'S' :: g, r4) else none
      else none
    | _ => none

/-- The lazy name capture `(.*?\S)` followed by `partnerTail`: try the
shortest name first, extending the lazy star one `.`-matching character at a
time, exactly the ECMAScript preference order. -/
def nameSearch (acc : List Char) : List Char → Option (List Char × List Char × List Char)
  | [] => none
  | c :: rest =>
    if jsWs c then
      if jsDot c then nameSearch (acc ++ [c]) rest else none
    else
      match partnerTail rest with
      | some (g, h) => some (acc ++ [c], g, h)
      | none => if jsDot c then nameSearch (acc ++ [c]) rest else none

/-- `partnerRegex = /^(\d{4,6})\s+(.*?\S)\s+(US[A-Z0-9]+)\s+([0-9]+(?:\.[0-9]{1,2})?)$/`
applied to one line, returning the four captures.  `\d{4,6}` must take the
whole leading digit run (a shorter take leaves a digit where `\s+` expects
whitespace), so the only search dimension is the lazy name. -/
def matchPartnerLine (line : List Char) : Option (List Char × List Char × List Char × List Char) :=
  let ds := line.takeWhile jsDigit
  let r1 := line.dropWhile jsDigit
  if 4 ≤ ds.length ∧ ds.length ≤ 6 then
    let w1 := r1.takeWhile jsWs
    let r2 := r1.dropWhile jsWs
    if w1 = [] then none
    else (nameSearch [] r2).map (fun x => (ds, x.1, x.2.1, x.2.2))
  else none

/-- Case-insensitive literal match (ECMAScript `/i` canonicalization restricted
to ASCII, which covers the patterns of this source); returns the rest. -/
def stripCI : List Char → List Char → Option (List Char)
  | [], s => some s
  | _ :: _, [] => none
  | p :: ps, c :: cs => if p.toLower == c.toLower then stripCI ps cs else none

/-- One attempt of `/Total Tippable Hours:\s*([0-9]+(?:\.[0-9]{1,2})?)/i` at a
fixed position; unanchored, so the optional fraction takes at most two digits
and the match simply ends. -/
def matchHoursAt (s : List Char) : Option (List Char) :=
  match stripCI ("Total Tippable Hours:".toList) s with
  | none => none
  | some r =>
    let r2 := r.dropWhile jsWs
    let ip := r2.takeWhile jsDigit
    let r3 := r2.dropWhile jsDigit
    if ip = [] then none
    else
      match r3 with
      | c :: r4 =>
        if c == '.' then
          let fp := (r4.takeWhile jsDigit).take 2
          if fp = [] then some ip else some (ip ++ '.' :: fp)
        else some ip
      | [] => some ip

/-- One attempt of `/Store\s+#?(\d{4,6})/i` at a fixed position. -/
def matchStoreAt (s : List Char) : Option (List Char) :=
  match stripCI ("Store".toList) s with
  | none => none
  | some r =>
    let w := r.takeWhile jsWs
    let r2 := r.dropWhile jsWs
    if w = [] then none
    else
      let r3 := match r2 with
        | c :: t => if c == '#' then t else r2
        | [] => r2
      let ds := r3.takeWhile jsDigit
      if 4 ≤ ds.length then some (ds.take 6) else none

/-- `\d{1,2}\/`: greedily two digits, else one, then the slash. -/
def matchDayMonthSlash (s : List Char) : Option (List Char × List Char) :=
  match s with
  | a :: b :: c :: r =>
    if jsDigit a && jsDigit b && c == '/' then some ([a, b], r)
    else if jsDigit a && b == '/' then some ([a], c :: r)
    else none
  | [a, b] => if jsDigit a && b == '/' then some ([a], []) else none
  | _ => none

/-- `\d{2,4}` followed by a continuation: greedy, so four digits are tried
first, then three, then two. -/
def matchYearThen (s : List Char)
    (k : List Char → List Char → Option (List Char × List Char)) :
    Option (List Char × List Char) :=
  let run := s.takeWhile jsDigit
  (if 4 ≤ run.length then k (run.take 4) (s.drop 4) else none).orElse fun _ =>
  (if 3 ≤ run.length then k (run.take 3) (s.drop 3) else none).orElse fun _ =>
  (if 2 ≤ run.length then k (run.take 2) (s.drop 2) else none)

/-- One attempt of
`/(\d{1,2}\/\d{1,2}\/\d{2,4})\s*[–-]\s*(\d{1,2}\/\d{1,2}\/\d{2,4})/` at a
fixed position, returning the two date captures. -/
def matchDateAt (s : List Char) : Option (List Char × List Char) :=
  match matchDayMonthSlash s with
  | none => none
  | some (p1, r1) =>
    match matchDayMonthSlash r1 with
    | none => none
    | some (p2, r2) =>
      matchYearThen r2 (fun y1 r3 =>
        match r3.dropWhile jsWs with
        | [] => none
        | d :: r5 =>
          if d == '-' || d == '–' then
            match matchDayMonthSlash (r5.dropWhile jsWs) with
            | none => none
            | some (p3, r7) =>
              match matchDayMonthSlash r7 with
              | none => none
              | some (p4, r8) =>
                let run2 := r8.takeWhile jsDigit
                if 2 ≤ run2.length then
                  some (p1 ++ '/' :: p2 ++ '/' :: y1,
                        p3 ++ '/' :: p4 ++ '/' :: run2.take 4)
                else none
          else none)

/-- Leftmost-match scan of an unanchored pattern: try the attempt at every
position, earliest success wins (ECMAScript `String.prototype.match`). -/
def findFirst (att : List Char → Option α) : List Char → Option α
  | [] => att []
  | c :: rest =>
    match att (c :: rest) with
    | some v => some v
    | none => findFirst att rest

/-! ## The three extractor entry points -/

/-- The return shape of `parseContent` (both serverless functions). -/
structure ParsedReport where
  partners : List Partner
  totalHours : Option ℚ
  storeNumber : Option (List Char)
  timePeriod : Option (List Char)
  warnings : List String
deriving DecidableEq

/-- The return shape of `parseManualText`
(`Pick<ExtractionResult, 'partners' | 'total_tippable_hours' | 'store_number' | 'time_period' | 'warnings'>`). -/
structure ManualParseResult where
  partners : List Partner
  total_tippable_hours : Option ℚ
  store_number : Option (List Char)
  time_period : Option (List Char)
  warnings : List String
deriving DecidableEq

/-- JavaScript truthiness test `!totalHours` on `number | undefined`. -/
def totalHoursFalsy : Option ℚ → Bool
  | Option.none => true
  | Option.some q => q == 0

/-- `function parseContent(content)` of the Netlify function
(`apps/api/extract.ts`). -/
def parseContent (content : List Char) : ParsedReport :=
  let lines := ((splitLines content).map jsTrim).filter (fun l => !l.isEmpty)
  let partners := lines.filterMap (fun line =>
    (matchPartnerLine line).map (fun x =>
      { partner_number := x.1
        name := x.2.1
        partner_global_id := some x.2.2.1
        hours := parseFloatQ x.2.2.2 : Partner }))
  let totalHours := (findFirst matchHoursAt content).map parseFloatQ
  let storeNumber := findFirst matchStoreAt content
  let timePeriod := (findFirst matchDateAt content).map (fun d => d.1 ++ '–' :: d.2)
  let warnings :=
    (if partners.isEmpty then
      ["No partner rows detected. Ensure the upload is a Tip Distribution Report."]
     else []) ++
    (if totalHoursFalsy totalHours then
      ["Total tippable hours not found. You may need to enter them manually."]
     else [])
  { partners := partners, totalHours := totalHours, storeNumber := storeNumber,
    timePeriod := timePeriod, warnings := warnings }

/-- `function parseContent(content)` of the Vercel function
(the second serverless deployment target, line for line the same logic). -/
def parseContentV (content : List Char) : ParsedReport :=
  let lines := ((splitLines content).map jsTrim).filter (fun l => !l.isEmpty)
  let partners := lines.filterMap (fun line =>
    (matchPartnerLine line).map (fun x =>
      { partner_number := x.1
        name := x.2.1
        partner_global_id := some x.2.2.1
        hours := parseFloatQ x.2.2.2 : Partner }))
  let totalHours := (findFirst matchHoursAt content).map parseFloatQ
  let storeNumber := findFirst matchStoreAt content
  let timePeriod := (findFirst matchDateAt content).map (fun d => d.1 ++ '–' :: d.2)
  let warnings :=
    (if partners.isEmpty then
      ["No partner rows detected. Ensure the upload is a Tip Distribution Report."]
     else []) ++
    (if totalHoursFalsy totalHours then
      ["Total tippable hours not found. You may need to enter them manually."]
     else [])
  { partners := partners, totalHours := totalHours, storeNumber := storeNumber,
    timePeriod := timePeriod, warnings := warnings }

/-- `function parseManualText(content)` of the web app
(same regexes; the only warning it ever pushes is the no-partner-rows one). -/
def parseManualText (content : List Char) : ManualParseResult :=
  let lines := ((splitLines content).map jsTrim).filter (fun l => !l.isEmpty)
  let partners := lines.filterMap (fun line =>
    (matchPartnerLine line).map (fun x =>
      { partner_number := x.1
        name := x.2.1
        partner_global_id := some x.2.2.1
        hours := parseFloatQ x.2.2.2 : Partner }))
  let hoursMatch := findFirst matchHoursAt content
  let storeMatch := findFirst matchStoreAt content
  let dateMatch := findFirst matchDateAt content
  let warnings :=
    if partners.isEmpty then ["No partner rows detected in the pasted text."] else []
  { partners := partners
    total_tippable_hours := hoursMatch.map parseFloatQ
    store_number := storeMatch
    time_period := dateMatch.map (fun d => d.1 ++ '–' :: d.2)
    warnings := warnings }

/-! ## Cent-grid arithmetic -/

/-- A value on the cent grid (an exact multiple of 1/100). -/
def IsCent (q : ℚ) : Prop := ∃ m : ℤ, q = (m : ℚ) / 100

theorem isCent_zero : IsCent 0 := ⟨0, by norm_num⟩

theorem isCent_add {a b : ℚ} (ha : IsCent a) (hb : IsCent b) : IsCent (a + b) := by
  obtain ⟨m, rfl⟩ := ha
  obtain ⟨n, rfl⟩ := hb
  exact ⟨m + n, by push_cast; ring⟩

theorem isCent_toFixed2 (q : ℚ) : IsCent (toFixed2 q) := ⟨jsRound (q * 100), rfl⟩

theorem floor_intCast_add_half (m : ℤ) : ⌊(m : ℚ) + 1/2⌋ = m := by
  rw [add_comm, Int.floor_add_int]
  norm_num

theorem toFixed2_eq_self {q : ℚ} (h : IsCent q) : toFixed2 q = q := by
  obtain ⟨m, rfl⟩ := h
  unfold toFixed2 jsRound
  rw [div_mul_cancel₀ (m : ℚ) (by norm_num : (100 : ℚ) ≠ 0), floor_intCast_add_half]

theorem toFixed2_sub_of_isCent (x : ℚ) {s : ℚ} (h : IsCent s) :
    toFixed2 (x - s) = toFixed2 x - s := by
  obtain ⟨m, rfl⟩ := h
  unfold toFixed2 jsRound
  have h1 : (x - (m : ℚ) / 100) * 100 + 1/2 = x * 100 + 1/2 + (-m : ℤ) := by
    push_cast; ring
  rw [h1, Int.floor_add_int]
  push_cast
  ring

theorem isCent_unit_mul (k : ℤ) (mode : RoundingMode) (h : mode ≠ RoundingMode.none) :
    IsCent ((k : ℚ) * ROUNDING_UNIT mode) := by
  cases mode with
  | none => exact absurd rfl h
  | cent => exact ⟨k, by rw [ROUNDING_UNIT]; ring⟩
  | dime => exact ⟨10 * k, by push_cast [ROUNDING_UNIT]; ring⟩
  | quarter => exact ⟨25 * k, by push_cast [ROUNDING_UNIT]; ring⟩
  | dollar => exact ⟨100 * k, by push_cast [ROUNDING_UNIT]; ring⟩

theorem isCent_applyRounding (value : ℚ) (mode : RoundingMode)
    (h : mode ≠ RoundingMode.none) : IsCent (applyRounding value mode) := by
  unfold applyRounding
  rw [if_neg h]
  exact isCent_unit_mul _ mode h

/-! ## C6 -/

/-- C6: the claim says quantization breaks ties "half away from zero"; the
code uses `Math.round`, which on a tie rounds toward positive infinity.  At
the exact payout −5/2 under dollar rounding the two nearest multiples are −3
and −2 (an exact tie, |−5/2 − (−3)| = |−5/2 − (−2)|); rounding half away
from zero picks the larger-magnitude −3, but the code produces −2. -/
theorem C6_counterexample :
    toFixed2 (applyRounding (-(5 : ℚ)/2) RoundingMode.dollar) = -2 ∧
    |(-(5 : ℚ)/2) - (-3)| = |(-(5 : ℚ)/2) - (-2)| ∧
    |(-3 : ℚ)| > |(-2 : ℚ)| ∧ (-2 : ℚ) ≠ -3 := by
  refine ⟨?_, by norm_num [abs], by norm_num [abs], by norm_num⟩
  rw [applyRounding, if_neg (by decide : ¬ RoundingMode.dollar = RoundingMode.none)]
  norm_num [toFixed2, jsRound, ROUNDING_UNIT]

/-- C6 (amended): for a mode other than `none`, the pre-reconciliation
`roundedPayout` is the exact payout quantized to the nearest multiple of the
mode's unit with ties rounded half toward positive infinity (which agrees
with half-away-from-zero only for non-negative payouts), then re-expressed
at 2 decimal places — a step that leaves the value unchanged, every unit
multiple already lying on the cent grid.  The interval characterization
`x − 1/2 < k ≤ x + 1/2` is exactly "nearest multiple, ties upward". -/
theorem C6_quantization (value : ℚ) (mode : RoundingMode)
    (h : mode ≠ RoundingMode.none) :
    ∃ k : ℤ, applyRounding value mode = (k : ℚ) * ROUNDING_UNIT mode ∧
      value / ROUNDING_UNIT mode - 1/2 < (k : ℚ) ∧
      (k : ℚ) ≤ value / ROUNDING_UNIT mode + 1/2 ∧
      toFixed2 (applyRounding value mode) = applyRounding value mode := by
  refine ⟨jsRound (value / ROUNDING_UNIT mode), ?_, ?_, ?_, ?_⟩
  · unfold applyRounding
    rw [if_neg h]
  · unfold jsRound
    have := Int.sub_one_lt_floor (value / ROUNDING_UNIT mode + 1/2)
    push_cast at this ⊢
    linarith
  · unfold jsRound
    have := Int.floor_le (value / ROUNDING_UNIT mode + 1/2)
    push_cast at this ⊢
    linarith
  · exact toFixed2_eq_self (isCent_applyRounding value mode h)

/-- Witness for C6 (amended) at `value = 1/3`, `mode = quarter`. -/
theorem C6_quantization_witness :
    RoundingMode.quarter ≠ RoundingMode.none ∧
    (∃ k : ℤ, applyRounding (1/3 : ℚ) RoundingMode.quarter = (k : ℚ) * ROUNDING_UNIT RoundingMode.quarter ∧
      (1/3 : ℚ) / ROUNDING_UNIT RoundingMode.quarter - 1/2 < (k : ℚ) ∧
      (k : ℚ) ≤ (1/3 : ℚ) / ROUNDING_UNIT RoundingMode.quarter + 1/2 ∧
      toFixed2 (applyRounding (1/3 : ℚ) RoundingMode.quarter) = applyRounding (1/3 : ℚ) RoundingMode.quarter) :=
  ⟨by decide, C6_quantization (1/3) RoundingMode.quarter (by decide)⟩

/-! ## Structural views of `distributeTips` -/

/-- The hours basis `totalHours ?? partners.reduce(...)`. -/
def dtHoursSum (partners : List Partner) (totalHours : Option ℚ) : ℚ :=
  totalHours.getD (partners.foldl (fun sum partner => sum + partner.hours) 0)

/-- The clamped hours basis. -/
def dtSafeHours (partners : List Partner) (totalHours : Option ℚ) : ℚ :=
  if dtHoursSum partners totalHours > 0 then dtHoursSum partners totalHours else 0

/-- The hourly rate. -/
def dtRate (partners : List Partner) (totalTips : ℚ) (totalHours : Option ℚ) : ℚ :=
  if dtSafeHours partners totalHours > 0 then totalTips / dtSafeHours partners totalHours else 0

/-- The mapped payouts before the `none`-mode re-map and before reconciliation. -/
def dtBase (partners : List Partner) (totalTips : ℚ) (rounding : RoundingMode)
    (totalHours : Option ℚ) : List PartnerPayout :=
  partners.map (fun partner =>
    { toPartner := partner
      payout := partner.hours * dtRate partners totalTips totalHours
      roundedPayout := toFixed2 (applyRounding (partner.hours * dtRate partners totalTips totalHours) rounding) })

/-- The reconciliation delta before the zero test. -/
def dtDelta (partners : List Partner) (totalTips : ℚ) (rounding : RoundingMode)
    (totalHours : Option ℚ) : ℚ :=
  toFixed2 (totalTips -
    (dtBase partners totalTips rounding totalHours).foldl (fun sum partner => sum + partner.roundedPayout) 0)

theorem distributeTips_def (partners : List Partner) (totalTips : ℚ)
    (rounding : RoundingMode) (totalHours : Option ℚ) :
    distributeTips partners totalTips rounding totalHours =
      if rounding = RoundingMode.none then
        { payouts := (dtBase partners totalTips rounding totalHours).map
            (fun p => { p with roundedPayout := toFixed2 p.payout })
          hourlyRate := dtRate partners totalTips totalHours
          roundingDelta := 0 }
      else if dtDelta partners totalTips rounding totalHours = 0 then
        { payouts := dtBase partners totalTips rounding totalHours
          hourlyRate := dtRate partners totalTips totalHours
          roundingDelta := 0 }
      else
        match sortByFracDesc (dtBase partners totalTips rounding totalHours) with
        | [] =>
          { payouts := dtBase partners totalTips rounding totalHours
            hourlyRate := dtRate partners totalTips totalHours
            roundingDelta := dtDelta partners totalTips rounding totalHours }
        | top :: _ =>
          { payouts := (dtBase partners totalTips rounding totalHours).replace top
              { top with roundedPayout := toFixed2 (top.roundedPayout + dtDelta partners totalTips rounding totalHours) }
            hourlyRate := dtRate partners totalTips totalHours
            roundingDelta := dtDelta partners totalTips rounding totalHours } := rfl

theorem mem_insertByFrac {x p : PartnerPayout} {l : List PartnerPayout} :
    x ∈ insertByFrac p l ↔ x = p ∨ x ∈ l := by
  induction l with
  | nil => simp [insertByFrac]
  | cons q qs ih =>
    rw [insertByFrac]
    by_cases hc : fracPart q.payout > fracPart p.payout
    · rw [if_pos hc]
      simp only [List.mem_cons, ih]
      try tauto
    · rw [if_neg hc]
      simp only [List.mem_cons]
      try tauto

theorem mem_sortByFracDesc {x : PartnerPayout} {ps : List PartnerPayout} :
    x ∈ sortByFracDesc ps ↔ x ∈ ps := by
  induction ps with
  | nil => simp [sortByFracDesc]
  | cons p ps ih =>
    show x ∈ insertByFrac p (sortByFracDesc ps) ↔ _
    rw [mem_insertByFrac, ih]
    simp [List.mem_cons]

theorem mem_of_mem_replace {α : Type} [DecidableEq α] {l : List α} {a b x : α}
    (h : x ∈ l.replace a b) : x ∈ l ∨ x = b := by
  induction l with
  | nil => simp at h
  | cons c t ih =>
    rw [List.replace_cons] at h
    cases hac : a == c with
    | true =>
      simp only [hac, List.mem_cons] at h
      rcases h with h | h
      · exact Or.inr h
      · exact Or.inl (List.mem_cons_of_mem _ h)
    | false =>
      simp only [hac, List.mem_cons] at h
      rcases h with h | h
      · exact Or.inl (h ▸ List.mem_cons_self c t)
      · rcases ih h with h | h
        · exact Or.inl (List.mem_cons_of_mem _ h)
        · exact Or.inr h

theorem distributeTips_hourlyRate (partners : List Partner) (totalTips : ℚ)
    (rounding : RoundingMode) (totalHours : Option ℚ) :
    (distributeTips partners totalTips rounding totalHours).hourlyRate =
      dtRate partners totalTips totalHours := by
  rw [distributeTips_def]
  split
  · rfl
  · split
    · rfl
    · split <;> rfl

theorem mem_payouts_payout {partners : List Partner} {totalTips : ℚ}
    {rounding : RoundingMode} {totalHours : Option ℚ} {p : PartnerPayout}
    (hp : p ∈ (distributeTips partners totalTips rounding totalHours).payouts) :
    ∃ q ∈ dtBase partners totalTips rounding totalHours, p.payout = q.payout := by
  rw [distributeTips_def] at hp
  split at hp
  · simp only [List.mem_map] at hp
    obtain ⟨q, hq, rfl⟩ := hp
    exact ⟨q, hq, rfl⟩
  · split at hp
    · exact ⟨p, hp, rfl⟩
    · split at hp
      · exact ⟨p, hp, rfl⟩
      · next top _ hsort =>
        simp only [DistributeResult.mk.injEq] at hp
        rcases mem_of_mem_replace hp with h | rfl
        · exact ⟨p, h, rfl⟩
        · refine ⟨top, ?_, rfl⟩
          have : top ∈ sortByFracDesc (dtBase partners totalTips rounding totalHours) := by
            rw [hsort]; exact List.mem_cons_self _ _
          exact mem_sortByFracDesc.mp this

theorem dtRate_of_nonpos {partners : List Partner} {totalTips : ℚ} {totalHours : Option ℚ}
    (h : dtHoursSum partners totalHours ≤ 0) : dtRate partners totalTips totalHours = 0 := by
  unfold dtRate dtSafeHours
  rw [if_neg (not_lt.mpr h)]
  simp

/-! ## C4 -/

/-- C4: if the effective hours basis (the override when provided, else the
summed partner hours) is nonpositive, the hourly rate is 0 and every exact
payout is 0; `distributeTips` is a total function, so the call returns
normally with no division by zero and no error. -/
theorem C4_nonpositive_hours (partners : List Partner) (totalTips : ℚ)
    (rounding : RoundingMode) (totalHours : Option ℚ)
    (h : totalHours.getD (partners.foldl (fun sum partner => sum + partner.hours) 0) ≤ 0) :
    (distributeTips partners totalTips rounding totalHours).hourlyRate = 0 ∧
    ∀ p ∈ (distributeTips partners totalTips rounding totalHours).payouts, p.payout = 0 := by
  have hrate : dtRate partners totalTips totalHours = 0 := dtRate_of_nonpos h
  constructor
  · rw [distributeTips_hourlyRate, hrate]
  · intro p hp
    obtain ⟨q, hq, hpq⟩ := mem_payouts_payout hp
    rw [hpq]
    unfold dtBase at hq
    simp only [List.mem_map] at hq
    obtain ⟨partner, _, rfl⟩ := hq
    simp [hrate]

/-- Witness for C4 at one zero-hours partner, a 100 pool and cent rounding. -/
theorem C4_nonpositive_hours_witness :
    ((Option.none : Option ℚ).getD
      (([{ partner_number := ['1'], name := ['A'], partner_global_id := Option.none, hours := 0 }] : List Partner).foldl
        (fun sum partner => sum + partner.hours) 0) ≤ 0) ∧
    (distributeTips [{ partner_number := ['1'], name := ['A'], partner_global_id := Option.none, hours := 0 }]
      100 RoundingMode.cent Option.none).hourlyRate = 0 ∧
    ∀ p ∈ (distributeTips [{ partner_number := ['1'], name := ['A'], partner_global_id := Option.none, hours := 0 }]
      100 RoundingMode.cent Option.none).payouts, p.payout = 0 := by
  refine ⟨by norm_num, ?_, ?_⟩
  · exact (C4_nonpositive_hours _ 100 RoundingMode.cent Option.none (by norm_num)).1
  · exact (C4_nonpositive_hours _ 100 RoundingMode.cent Option.none (by norm_num)).2

/-! ## C5 -/

/-- C5: with `roundingMode = none` every `roundedPayout` is the exact payout
rounded only to two decimal places (no unit quantization), and the returned
`roundingDelta` is 0 — the reconciliation step is skipped. -/
theorem C5_none_mode (partners : List Partner) (totalTips : ℚ) (totalHours : Option ℚ) :
    (distributeTips partners totalTips RoundingMode.none totalHours).payouts =
      partners.map (fun p =>
        { toPartner := p
          payout := p.hours * (distributeTips partners totalTips RoundingMode.none totalHours).hourlyRate
          roundedPayout := toFixed2 (p.hours * (distributeTips partners totalTips RoundingMode.none totalHours).hourlyRate) }) ∧
    (distributeTips partners totalTips RoundingMode.none totalHours).roundingDelta = 0 := by
  rw [distributeTips_hourlyRate, distributeTips_def]
  rw [if_pos rfl]
  constructor
  · unfold dtBase
    rw [List.map_map]
    rfl
  · rfl

/-! ## Summation lemmas for the reconciliation proofs -/

theorem foldl_add_eq {α : Type} (f : α → ℚ) (l : List α) (a : ℚ) :
    l.foldl (fun s x => s + f x) a = a + (l.map f).sum := by
  induction l generalizing a with
  | nil => simp
  | cons c t ih =>
    simp only [List.foldl_cons, List.map_cons, List.sum_cons, ih]
    ring

theorem isCent_sum {α : Type} (f : α → ℚ) (l : List α)
    (h : ∀ x ∈ l, IsCent (f x)) : IsCent ((l.map f).sum) := by
  induction l with
  | nil => simpa using isCent_zero
  | cons c t ih =>
    simp only [List.map_cons, List.sum_cons]
    exact isCent_add (h c (List.mem_cons_self c t))
      (ih fun x hx => h x (List.mem_cons_of_mem _ hx))

theorem sum_map_replace {α : Type} [DecidableEq α] (f : α → ℚ) {l : List α} {a : α}
    (h : a ∈ l) (b : α) :
    ((l.replace a b).map f).sum = (l.map f).sum - f a + f b := by
  induction l with
  | nil => simp at h
  | cons c t ih =>
    rw [List.replace_cons]
    cases hac : a == c with
    | true =>
      have hace : a = c := by simpa using hac
      simp only [List.map_cons, List.sum_cons, hace]
      ring
    | false =>
      have hace : a ≠ c := by simpa using hac
      have hat : a ∈ t := by
        rcases List.mem_cons.mp h with h1 | h1
        · exact absurd h1 hace
        · exact h1
      simp only [List.map_cons, List.sum_cons, ih hat]
      ring

theorem sortByFracDesc_ne_nil {ps : List PartnerPayout} (h : ps ≠ []) :
    sortByFracDesc ps ≠ [] := by
  obtain ⟨x, hx⟩ := List.exists_mem_of_ne_nil ps h
  exact List.ne_nil_of_mem (mem_sortByFracDesc.mpr hx)

theorem isCent_dtBase {partners : List Partner} {totalTips : ℚ}
    {rounding : RoundingMode} {totalHours : Option ℚ} {x : PartnerPayout}
    (hx : x ∈ dtBase partners totalTips rounding totalHours) :
    IsCent x.roundedPayout := by
  unfold dtBase at hx
  simp only [List.mem_map] at hx
  obtain ⟨partner, _, rfl⟩ := hx
  exact isCent_toFixed2 _

/-! ## C1 -/

/-- C1: the conservation claim quantifies over every partner list, but with an
empty partner list and a nonzero pool the reconciliation delta has no partner
to absorb it: the sum of rounded payouts is 0 while the pool rounds to 100. -/
theorem C1_counterexample :
    ((distributeTips ([] : List Partner) 100 RoundingMode.cent Option.none).payouts.map
      (fun p => p.roundedPayout)).sum = 0 ∧
    toFixed2 (100 : ℚ) = 100 ∧ (0 : ℚ) ≠ 100 := by
  have h100 : toFixed2 (100 : ℚ) = 100 := by
    norm_num [toFixed2, jsRound]
  refine ⟨?_, h100, by norm_num⟩
  rw [distributeTips_def, if_neg (by decide : ¬ RoundingMode.cent = RoundingMode.none)]
  by_cases hd : dtDelta ([] : List Partner) 100 RoundingMode.cent Option.none = 0
  · rw [if_pos hd]
    rfl
  · rw [if_neg hd]
    rfl

/-- C1 (amended): provided the partner list is nonempty, for every pool
amount, hours basis and rounding mode other than `none`, the sum of all
`roundedPayout` values after reconciliation equals the pool amount rounded
to 2 decimal places exactly. -/
theorem C1_conservation (partners : List Partner) (totalTips : ℚ)
    (rounding : RoundingMode) (totalHours : Option ℚ)
    (hmode : rounding ≠ RoundingMode.none) (hne : partners ≠ []) :
    ((distributeTips partners totalTips rounding totalHours).payouts.map
      (fun p => p.roundedPayout)).sum = toFixed2 totalTips := by
  have hqs_ne : dtBase partners totalTips rounding totalHours ≠ [] := by
    unfold dtBase
    simpa using hne
  have hS : IsCent ((dtBase partners totalTips rounding totalHours).map
      (fun p => p.roundedPayout)).sum :=
    isCent_sum _ _ fun x hx => isCent_dtBase hx
  have hdelta_eq : dtDelta partners totalTips rounding totalHours =
      toFixed2 totalTips -
        ((dtBase partners totalTips rounding totalHours).map (fun p => p.roundedPayout)).sum := by
    unfold dtDelta
    rw [foldl_add_eq, zero_add]
    exact toFixed2_sub_of_isCent totalTips hS
  rw [distributeTips_def, if_neg hmode]
  by_cases hd : dtDelta partners totalTips rounding totalHours = 0
  · rw [if_pos hd]
    rw [hdelta_eq] at hd
    linarith
  · rw [if_neg hd]
    obtain ⟨top, rest, hsort⟩ : ∃ top rest,
        sortByFracDesc (dtBase partners totalTips rounding totalHours) = top :: rest := by
      cases hs : sortByFracDesc (dtBase partners totalTips rounding totalHours) with
      | nil => exact absurd hs (sortByFracDesc_ne_nil hqs_ne)
      | cons top rest => exact ⟨top, rest, rfl⟩
    rw [hsort]
    have htop_mem : top ∈ dtBase partners totalTips rounding totalHours :=
      mem_sortByFracDesc.mp (hsort ▸ List.mem_cons_self top rest)
    show (((dtBase partners totalTips rounding totalHours).replace top
        { top with roundedPayout := toFixed2 (top.roundedPayout + dtDelta partners totalTips rounding totalHours) }).map
        (fun p => p.roundedPayout)).sum = toFixed2 totalTips
    rw [sum_map_replace _ htop_mem]
    have hfix : toFixed2 (top.roundedPayout + dtDelta partners totalTips rounding totalHours) =
        top.roundedPayout + dtDelta partners totalTips rounding totalHours :=
      toFixed2_eq_self (isCent_add (isCent_dtBase htop_mem) (isCent_toFixed2 _))
    show _ - top.roundedPayout + toFixed2 (top.roundedPayout + dtDelta partners totalTips rounding totalHours) = _
    rw [hfix, hdelta_eq]
    ring

/-- Witness for C1 (amended): two partners with hours 3 and 1, a pool of 10,
quarter rounding. -/
theorem C1_conservation_witness :
    (RoundingMode.quarter ≠ RoundingMode.none ∧
     ([{ partner_number := ['1'], name := ['A'], partner_global_id := Option.none, hours := 3 },
       { partner_number := ['2'], name := ['B'], partner_global_id := Option.none, hours := 1 }] : List Partner) ≠ []) ∧
    ((distributeTips
        [{ partner_number := ['1'], name := ['A'], partner_global_id := Option.none, hours := 3 },
         { partner_number := ['2'], name := ['B'], partner_global_id := Option.none, hours := 1 }]
        10 RoundingMode.quarter Option.none).payouts.map (fun p => p.roundedPayout)).sum =
      toFixed2 (10 : ℚ) :=
  ⟨⟨by decide, by simp⟩,
   C1_conservation _ 10 RoundingMode.quarter Option.none (by decide) (by simp)⟩

/-! ## Head of the stable descending sort and first-occurrence replacement -/

theorem sortByFracDesc_eq_nil {ps : List PartnerPayout} (h : sortByFracDesc ps = []) :
    ps = [] := by
  by_contra hne
  exact sortByFracDesc_ne_nil hne h

theorem sortByFracDesc_head {ps : List PartnerPayout} {top : PartnerPayout}
    {rest : List PartnerPayout} (h : sortByFracDesc ps = top :: rest) :
    ∃ j, ∃ hj : j < ps.length, ps.get ⟨j, hj⟩ = top ∧
      (∀ i (hi : i < ps.length),
        fracPart ((ps.get ⟨i, hi⟩).payout) ≤ fracPart top.payout) ∧
      (∀ i (hi : i < j),
        fracPart ((ps.get ⟨i, Nat.lt_trans hi hj⟩).payout) < fracPart top.payout) := by
  induction ps generalizing top rest with
  | nil => simp [sortByFracDesc] at h
  | cons p ps ih =>
    have hstep : sortByFracDesc (p :: ps) = insertByFrac p (sortByFracDesc ps) := rfl
    rw [hstep] at h
    cases hs : sortByFracDesc ps with
    | nil =>
      rw [hs] at h
      have hps : ps = [] := sortByFracDesc_eq_nil hs
      subst hps
      simp only [insertByFrac] at h
      obtain ⟨rfl, rfl⟩ : p = top ∧ ([] : List PartnerPayout) = rest := by
        constructor
        · exact (List.cons.injEq _ _ _ _ ▸ h).1
        · exact (List.cons.injEq _ _ _ _ ▸ h).2
      refine ⟨0, by simp, rfl, ?_, ?_⟩
      · intro i hi
        have hi0 : i = 0 := Nat.lt_one_iff.mp (by simpa using hi)
        subst hi0
        simp
      · intro i hi
        exact absurd hi (Nat.not_lt_zero i)
    | cons q qs =>
      rw [hs] at h
      rw [insertByFrac] at h
      by_cases hc : fracPart q.payout > fracPart p.payout
      · rw [if_pos hc] at h
        have htop : q = top := (List.cons.injEq _ _ _ _ ▸ h).1
        subst htop
        obtain ⟨j', hj', hget, hmax, hstrict⟩ := ih hs
        refine ⟨j' + 1, Nat.succ_lt_succ hj', ?_, ?_, ?_⟩
        · simpa using hget
        · intro i hi
          cases i with
          | zero => simpa using le_of_lt hc
          | succ i' =>
            have hi' : i' < ps.length := Nat.lt_of_succ_lt_succ hi
            simpa using hmax i' hi'
        · intro i hi
          cases i with
          | zero => simpa using hc
          | succ i' =>
            have hi' : i' < j' := Nat.lt_of_succ_lt_succ hi
            simpa using hstrict i' hi'
      · rw [if_neg hc] at h
        have htop : p = top := (List.cons.injEq _ _ _ _ ▸ h).1
        subst htop
        obtain ⟨j', hj', hget, hmax, hstrict⟩ := ih hs
        refine ⟨0, by simp, rfl, ?_, ?_⟩
        · intro i hi
          cases i with
          | zero => simp
          | succ i' =>
            have hi' : i' < ps.length := Nat.lt_of_succ_lt_succ hi
            have h1 : fracPart ((ps.get ⟨i', hi'⟩).payout) ≤ fracPart q.payout := hmax i' hi'
            have h2 : fracPart q.payout ≤ fracPart p.payout := not_lt.mp hc
            simpa using le_trans h1 h2
        · intro i hi
          exact absurd hi (Nat.not_lt_zero i)

theorem replace_eq_set {α : Type} [DecidableEq α] {l : List α} {a : α}
    (h : a ∈ l) (b : α) :
    ∃ j, ∃ hj : j < l.length, l.get ⟨j, hj⟩ = a ∧
      (∀ i (hi : i < j), l.get ⟨i, Nat.lt_trans hi hj⟩ ≠ a) ∧
      l.replace a b = l.set j b := by
  induction l with
  | nil => simp at h
  | cons c t ih =>
    by_cases hac : a = c
    · refine ⟨0, by simp, hac.symm, ?_, ?_⟩
      · intro i hi
        exact absurd hi (Nat.not_lt_zero i)
      · rw [List.replace_cons]
        simp [hac]
    · have hat : a ∈ t := by
        rcases List.mem_cons.mp h with h1 | h1
        · exact absurd h1 hac
        · exact h1
      obtain ⟨j', hj', hget, hbefore, heq⟩ := ih hat
      refine ⟨j' + 1, Nat.succ_lt_succ hj', by simpa using hget, ?_, ?_⟩
      · intro i hi
        cases i with
        | zero => simpa using fun hh => hac hh.symm
        | succ i' =>
          have hi' : i' < j' := Nat.lt_of_succ_lt_succ hi
          simpa using hbefore i' hi'
      · rw [List.replace_cons]
        have : (a == c) = false := by simpa using hac
        rw [this]
        simp only [List.set_cons_succ, heq]

theorem dtBase_roundedPayout {partners : List Partner} {totalTips : ℚ}
    {rounding : RoundingMode} {totalHours : Option ℚ} {x : PartnerPayout}
    (hx : x ∈ dtBase partners totalTips rounding totalHours) :
    x.roundedPayout = toFixed2 (applyRounding x.payout rounding) := by
  unfold dtBase at hx
  simp only [List.mem_map] at hx
  obtain ⟨partner, _, rfl⟩ := hx
  rfl

/-! ## C2 -/

/-- C2: the claim quantifies over every call with a nonzero reconciliation
delta, but with an empty partner list the delta (here 50) is nonzero and no
partner exists, so no partner's `roundedPayout` is adjusted — "exactly one
partner is adjusted by the entire delta" fails. -/
theorem C2_counterexample :
    (distributeTips ([] : List Partner) 50 RoundingMode.dime Option.none).roundingDelta = 50 ∧
    (distributeTips ([] : List Partner) 50 RoundingMode.dime Option.none).payouts = [] := by
  have hdelta : dtDelta ([] : List Partner) 50 RoundingMode.dime Option.none = 50 := by
    norm_num [dtDelta, dtBase, toFixed2, jsRound]
  rw [distributeTips_def, if_neg (by decide : ¬ RoundingMode.dime = RoundingMode.none)]
  rw [if_neg (by rw [hdelta]; norm_num)]
  exact ⟨hdelta, rfl⟩

theorem distributeTips_reconcile {partners : List Partner} {totalTips : ℚ}
    {rounding : RoundingMode} {totalHours : Option ℚ} {top : PartnerPayout}
    {rest : List PartnerPayout}
    (hmode : rounding ≠ RoundingMode.none)
    (hd : dtDelta partners totalTips rounding totalHours ≠ 0)
    (hsort : sortByFracDesc (dtBase partners totalTips rounding totalHours) = top :: rest) :
    distributeTips partners totalTips rounding totalHours =
      { payouts := (dtBase partners totalTips rounding totalHours).replace top
          { top with roundedPayout := toFixed2 (top.roundedPayout + dtDelta partners totalTips rounding totalHours) }
        hourlyRate := dtRate partners totalTips totalHours
        roundingDelta := dtDelta partners totalTips rounding totalHours } := by
  rw [distributeTips_def, if_neg hmode, if_neg hd, hsort]

/-- C2 (amended): provided the partner list is nonempty, whenever the
reconciliation delta is nonzero exactly one partner's `roundedPayout` is
adjusted, by the entire delta: the partner whose exact payout has the largest
fractional part, earliest in the original input order among ties; every
other partner's `roundedPayout` stays at its quantized value. -/
theorem C2_reconciliation (partners : List Partner) (totalTips : ℚ)
    (rounding : RoundingMode) (totalHours : Option ℚ) (res : DistributeResult)
    (hres : res = distributeTips partners totalTips rounding totalHours)
    (hmode : rounding ≠ RoundingMode.none) (hne : partners ≠ [])
    (hdelta : res.roundingDelta ≠ 0) :
    ∃ j, ∃ hj : j < res.payouts.length,
      (∀ i (hi : i < res.payouts.length),
        fracPart ((res.payouts.get ⟨i, hi⟩).payout) ≤
          fracPart ((res.payouts.get ⟨j, hj⟩).payout)) ∧
      (∀ i (hi : i < j),
        fracPart ((res.payouts.get ⟨i, Nat.lt_trans hi hj⟩).payout) <
          fracPart ((res.payouts.get ⟨j, hj⟩).payout)) ∧
      (res.payouts.get ⟨j, hj⟩).roundedPayout =
        toFixed2 (applyRounding ((res.payouts.get ⟨j, hj⟩).payout) rounding) +
          res.roundingDelta ∧
      (∀ i (hi : i < res.payouts.length), i ≠ j →
        (res.payouts.get ⟨i, hi⟩).roundedPayout =
          toFixed2 (applyRounding ((res.payouts.get ⟨i, hi⟩).payout) rounding)) := by
  by_cases hd : dtDelta partners totalTips rounding totalHours = 0
  · exfalso
    apply hdelta
    rw [hres, distributeTips_def, if_neg hmode, if_pos hd]
  · have hqs_ne : dtBase partners totalTips rounding totalHours ≠ [] := by
      unfold dtBase
      simpa using hne
    obtain ⟨top, rest, hsort⟩ : ∃ top rest,
        sortByFracDesc (dtBase partners totalTips rounding totalHours) = top :: rest := by
      cases hs : sortByFracDesc (dtBase partners totalTips rounding totalHours) with
      | nil => exact absurd hs (sortByFracDesc_ne_nil hqs_ne)
      | cons top rest => exact ⟨top, rest, rfl⟩
    have htop_mem : top ∈ dtBase partners totalTips rounding totalHours :=
      mem_sortByFracDesc.mp (hsort ▸ List.mem_cons_self top rest)
    obtain ⟨js, hjs, hget_s, hmax, hstrict⟩ := sortByFracDesc_head hsort
    obtain ⟨jr, hjr, hget_r, hbefore_r, heq_replace⟩ :=
      replace_eq_set htop_mem
        { top with roundedPayout := toFixed2 (top.roundedPayout + dtDelta partners totalTips rounding totalHours) }
    have hjs_ne : ∀ i (hi : i < js),
        (dtBase partners totalTips rounding totalHours).get ⟨i, Nat.lt_trans hi hjs⟩ ≠ top := by
      intro i hi hcontra
      have := hstrict i hi
      rw [hcontra] at this
      exact lt_irrefl _ this
    have hjj : jr = js := by
      rcases Nat.lt_trichotomy jr js with hlt | heq | hgt
      · exact absurd hget_r (hjs_ne jr hlt)
      · exact heq
      · exact absurd hget_s (hbefore_r js hgt)
    subst hjj
    rw [hres, distributeTips_reconcile hmode hd hsort, heq_replace]
    simp only
    have hlen : ((dtBase partners totalTips rounding totalHours).set jr
        { top with roundedPayout := toFixed2 (top.roundedPayout + dtDelta partners totalTips rounding totalHours) }).length =
        (dtBase partners totalTips rounding totalHours).length := by
      simp
    refine ⟨jr, by rw [hlen]; exact hjr, ?_, ?_, ?_, ?_⟩
    · intro i hi
      have hi' : i < (dtBase partners totalTips rounding totalHours).length := hlen ▸ hi
      rw [List.get_set_eq]
      by_cases hij : i = jr
      · subst hij
        rw [List.get_set_eq]
      · rw [List.get_set_ne (fun hh => hij hh.symm) hi]
        show fracPart ((dtBase partners totalTips rounding totalHours).get ⟨i, hi'⟩).payout ≤
          fracPart top.payout
        exact hmax i hi'
    · intro i hi
      have hi' : i < (dtBase partners totalTips rounding totalHours).length :=
        Nat.lt_trans hi hjr
      rw [List.get_set_eq, List.get_set_ne (fun hh => (Nat.ne_of_lt hi) hh.symm) _]
      show fracPart ((dtBase partners totalTips rounding totalHours).get ⟨i, hi'⟩).payout <
        fracPart top.payout
      exact hstrict i hi
    · rw [List.get_set_eq]
      show toFixed2 (top.roundedPayout + dtDelta partners totalTips rounding totalHours) =
        toFixed2 (applyRounding top.payout rounding) + dtDelta partners totalTips rounding totalHours
      have hfix : toFixed2 (top.roundedPayout + dtDelta partners totalTips rounding totalHours) =
          top.roundedPayout + dtDelta partners totalTips rounding totalHours :=
        toFixed2_eq_self (isCent_add (isCent_dtBase htop_mem) (isCent_toFixed2 _))
      rw [hfix, dtBase_roundedPayout htop_mem]
    · intro i hi hij
      have hi' : i < (dtBase partners totalTips rounding totalHours).length := hlen ▸ hi
      rw [List.get_set_ne (fun hh => hij hh.symm) hi]
      exact dtBase_roundedPayout (List.get_mem _ _ _)

/-- Concrete input for the C2 witness: three partners with one hour each. -/
def c2Partners : List Partner :=
  [{ partner_number := ['1'], name := ['A'], partner_global_id := Option.none, hours := 1 },
   { partner_number := ['2'], name := ['B'], partner_global_id := Option.none, hours := 1 },
   { partner_number := ['3'], name := ['C'], partner_global_id := Option.none, hours := 1 }]

/-- The C2 witness call: a 10 pool under dollar rounding, leaving delta 1. -/
def c2Res : DistributeResult := distributeTips c2Partners 10 RoundingMode.dollar Option.none

/-- Witness for C2 (amended). -/
theorem C2_reconciliation_witness :
    (c2Res = distributeTips c2Partners 10 RoundingMode.dollar Option.none ∧
     RoundingMode.dollar ≠ RoundingMode.none ∧ c2Partners ≠ [] ∧
     c2Res.roundingDelta ≠ 0) ∧
    (∃ j, ∃ hj : j < c2Res.payouts.length,
      (∀ i (hi : i < c2Res.payouts.length),
        fracPart ((c2Res.payouts.get ⟨i, hi⟩).payout) ≤
          fracPart ((c2Res.payouts.get ⟨j, hj⟩).payout)) ∧
      (∀ i (hi : i < j),
        fracPart ((c2Res.payouts.get ⟨i, Nat.lt_trans hi hj⟩).payout) <
          fracPart ((c2Res.payouts.get ⟨j, hj⟩).payout)) ∧
      (c2Res.payouts.get ⟨j, hj⟩).roundedPayout =
        toFixed2 (applyRounding ((c2Res.payouts.get ⟨j, hj⟩).payout) RoundingMode.dollar) +
          c2Res.roundingDelta ∧
      (∀ i (hi : i < c2Res.payouts.length), i ≠ j →
        (c2Res.payouts.get ⟨i, hi⟩).roundedPayout =
          toFixed2 (applyRounding ((c2Res.payouts.get ⟨i, hi⟩).payout) RoundingMode.dollar))) := by
  have hδ : dtDelta c2Partners 10 RoundingMode.dollar Option.none = 1 := by
    have hn : (RoundingMode.dollar = RoundingMode.none) = False := by simp
    norm_num [dtDelta, dtBase, dtRate, dtSafeHours, dtHoursSum, c2Partners, toFixed2,
      jsRound, applyRounding, ROUNDING_UNIT, hn]
  have hdelta0 : c2Res.roundingDelta ≠ 0 := by
    have h1 : c2Res.roundingDelta = 1 := by
      show (distributeTips c2Partners 10 RoundingMode.dollar Option.none).roundingDelta = 1
      rw [distributeTips_def, if_neg (by decide), if_neg (by rw [hδ]; norm_num)]
      cases hs : sortByFracDesc (dtBase c2Partners 10 RoundingMode.dollar Option.none) with
      | nil => simpa using hδ
      | cons t ts => simpa using hδ
    rw [h1]
    norm_num
  exact ⟨⟨rfl, by decide, by simp [c2Partners], hdelta0⟩,
    C2_reconciliation c2Partners 10 RoundingMode.dollar Option.none c2Res rfl
      (by decide) (by simp [c2Partners]) hdelta0⟩

/-! ## C10 -/

/-- C10: the three duplicated extractor implementations (Netlify
`parseContent`, Vercel `parseContent`, web `parseManualText`) agree on the
partners sequence, the total-hours value, the store number and the time
period for every input (they differ only in the warnings they emit). -/
theorem C10_duplicated_extractors (content : List Char) :
    (parseContentV content).partners = (parseContent content).partners ∧
    (parseContentV content).totalHours = (parseContent content).totalHours ∧
    (parseContentV content).storeNumber = (parseContent content).storeNumber ∧
    (parseContentV content).timePeriod = (parseContent content).timePeriod ∧
    (parseManualText content).partners = (parseContent content).partners ∧
    (parseManualText content).total_tippable_hours = (parseContent content).totalHours ∧
    (parseManualText content).store_number = (parseContent content).storeNumber ∧
    (parseManualText content).time_period = (parseContent content).timePeriod :=
  ⟨rfl, rfl, rfl, rfl, rfl, rfl, rfl, rfl⟩

/-! ## C3 -/

/-- C3: the claim requires a "total hours not found" diagnostic from every
extractor whenever total hours are absent, but `parseManualText` never emits
one: on empty input its total hours are absent while its warnings consist of
the no-partner-rows diagnostic alone. -/
theorem C3_counterexample :
    (parseManualText ("".toList)).total_tippable_hours = Option.none ∧
    (parseManualText ("".toList)).warnings =
      ["No partner rows detected in the pasted text."] :=
  ⟨rfl, rfl⟩

/-- C3 (amended): `parseContent` (both serverless variants, which agree)
emits the no-partner-rows diagnostic whenever `partners` is empty and the
total-hours diagnostic whenever `totalHours` is absent (in fact whenever it
is absent or zero, by JavaScript truthiness); `parseManualText` emits the
no-partner-rows diagnostic whenever its `partners` is empty but never any
total-hours diagnostic — its only possible warning is the no-partner-rows
one. -/
theorem C3_warnings (content : List Char) :
    ((parseContent content).partners = [] →
      "No partner rows detected. Ensure the upload is a Tip Distribution Report." ∈
        (parseContent content).warnings) ∧
    ((parseContent content).totalHours = Option.none →
      "Total tippable hours not found. You may need to enter them manually." ∈
        (parseContent content).warnings) ∧
    ((parseManualText content).partners = [] →
      "No partner rows detected in the pasted text." ∈ (parseManualText content).warnings) ∧
    (∀ w ∈ (parseManualText content).warnings,
      w = "No partner rows detected in the pasted text.") := by
  have hw : (parseContent content).warnings =
      (if (parseContent content).partners.isEmpty then
        ["No partner rows detected. Ensure the upload is a Tip Distribution Report."]
       else []) ++
      (if totalHoursFalsy (parseContent content).totalHours then
        ["Total tippable hours not found. You may need to enter them manually."]
       else []) := rfl
  have hmw : (parseManualText content).warnings =
      (if (parseManualText content).partners.isEmpty then
        ["No partner rows detected in the pasted text."]
       else []) := rfl
  refine ⟨?_, ?_, ?_, ?_⟩
  · intro h
    rw [hw, h]
    simp
  · intro h
    rw [hw, h]
    simp [totalHoursFalsy]
  · intro h
    rw [hmw, h]
    simp
  · intro w hwmem
    rw [hmw] at hwmem
    by_cases hp : (parseManualText content).partners.isEmpty
    · rw [if_pos hp] at hwmem
      simpa using hwmem
    · rw [if_neg hp] at hwmem
      simp at hwmem

/-- Witness for C3 (amended) on the empty input. -/
theorem C3_warnings_witness :
    ((parseContent ("".toList)).partners = [] ∧
      "No partner rows detected. Ensure the upload is a Tip Distribution Report." ∈
        (parseContent ("".toList)).warnings) ∧
    ((parseContent ("".toList)).totalHours = Option.none ∧
      "Total tippable hours not found. You may need to enter them manually." ∈
        (parseContent ("".toList)).warnings) ∧
    ((parseManualText ("".toList)).partners = [] ∧
      "No partner rows detected in the pasted text." ∈ (parseManualText ("".toList)).warnings) :=
  ⟨⟨rfl, (C3_warnings ("".toList)).1 rfl⟩,
   ⟨rfl, (C3_warnings ("".toList)).2.1 rfl⟩,
   ⟨rfl, (C3_warnings ("".toList)).2.2.1 rfl⟩⟩

/-! ## C9: the allocator at the JavaScript runtime level

The TypeScript union `RoundingMode` exists only statically; at runtime a
rounding-mode token is an arbitrary string and `ROUNDING_UNIT[mode]` is a
plain record lookup that yields `undefined` for an unknown key.  Arithmetic
on `undefined` yields `NaN`, which propagates; nothing in `applyRounding` or
`distributeTips` throws.  `Option ℚ` models a JavaScript number that may be
`NaN` (`Option.none` = NaN/undefined-arithmetic). -/

/-- `ROUNDING_UNIT[mode]` as the runtime record lookup. -/
def ROUNDING_UNIT_RT (mode : String) : Option ℚ :=
  if mode = "none" then some 0
  else if mode = "cent" then some (1/100)
  else if mode = "dime" then some (1/10)
  else if mode = "quarter" then some (1/4)
  else if mode = "dollar" then some 1
  else Option.none

/-- NaN-propagating addition. -/
def oAdd : Option ℚ → Option ℚ → Option ℚ
  | some a, some b => some (a + b)
  | _, _ => Option.none

/-- NaN-propagating subtraction. -/
def oSub : Option ℚ → Option ℚ → Option ℚ
  | some a, some b => some (a - b)
  | _, _ => Option.none

/-- `applyRounding` on a runtime token: for an unknown token the unit is
`undefined`, `value / undefined` is `NaN`, `Math.round(NaN)` is `NaN` and
`NaN * undefined` is `NaN`; the function returns that value, it never
throws. -/
def applyRoundingRT (value : ℚ) (mode : String) : Option ℚ :=
  if mode = "none" then some value
  else
    match ROUNDING_UNIT_RT mode with
    | some u => some ((jsRound (value / u) : ℚ) * u)
    | Option.none => Option.none

/-- `PartnerPayout` whose `roundedPayout` may be `NaN`. -/
structure PartnerPayoutRT extends Partner where
  payout : ℚ
  roundedPayout : Option ℚ
deriving DecidableEq

/-- The `distributeTips` return shape at the runtime level. -/
structure DistributeResultRT where
  payouts : List PartnerPayoutRT
  hourlyRate : ℚ
  roundingDelta : Option ℚ
deriving DecidableEq

/-- Stable insertion for the runtime payout list (same comparator). -/
def insertByFracRT (p : PartnerPayoutRT) : List PartnerPayoutRT → List PartnerPayoutRT
  | [] => [p]
  | q :: qs =>
    if fracPart q.payout > fracPart p.payout then q :: insertByFracRT p qs
    else p :: q :: qs

/-- The stable descending sort of the runtime payout list. -/
def sortByFracDescRT (ps : List PartnerPayoutRT) : List PartnerPayoutRT :=
  ps.foldr insertByFracRT []

/-- `distributeTips` on a runtime rounding-mode token, `Number(x.toFixed(2))`
on `NaN` being `NaN` again, and `NaN === 0` being false. -/
def distributeTipsRT (partners : List Partner) (totalTips : ℚ)
    (rounding : String) (totalHours : Option ℚ) : DistributeResultRT :=
  let hoursSum := totalHours.getD (partners.foldl (fun sum partner => sum + partner.hours) 0)
  let safeHours := if hoursSum > 0 then hoursSum else 0
  let hourlyRate := if safeHours > 0 then totalTips / safeHours else 0
  let payouts : List PartnerPayoutRT := partners.map (fun partner =>
    { toPartner := partner
      payout := partner.hours * hourlyRate
      roundedPayout := (applyRoundingRT (partner.hours * hourlyRate) rounding).map toFixed2 })
  if rounding = "none" then
    { payouts := payouts.map (fun p => { p with roundedPayout := some (toFixed2 p.payout) })
      hourlyRate := hourlyRate
      roundingDelta := some 0 }
  else
    let roundedTotal := payouts.foldl (fun sum partner => oAdd sum partner.roundedPayout) (some 0)
    let delta := (oSub (some totalTips) roundedTotal).map toFixed2
    if delta = some 0 then
      { payouts := payouts, hourlyRate := hourlyRate, roundingDelta := some 0 }
    else
      match sortByFracDescRT payouts with
      | [] => { payouts := payouts, hourlyRate := hourlyRate, roundingDelta := delta }
      | top :: _ =>
        { payouts := payouts.replace top
            { top with roundedPayout := (oAdd top.roundedPayout delta).map toFixed2 }
          hourlyRate := hourlyRate
          roundingDelta := delta }

/-- C9: at the failing input — one partner with 4 hours, a 100 pool and the
out-of-set rounding token `"nickel"` — the call does not fail fast with a
configuration error: it returns normally, with the hourly rate and exact
payout computed as usual and with `NaN` (modelled `Option.none`) as every
`roundedPayout` and as the `roundingDelta`.  No error path exists in the
source; the claim's required configuration failure does not happen. -/
theorem C9_unknown_token_returns :
    distributeTipsRT
      [{ partner_number := ['1'], name := ['A'], partner_global_id := Option.none, hours := 4 }]
      100 "nickel" Option.none =
      { payouts := [{ partner_number := ['1'], name := ['A'], partner_global_id := Option.none,
                      hours := 4, payout := 100, roundedPayout := Option.none }]
        hourlyRate := 25
        roundingDelta := Option.none } := by
  have hs1 : ("nickel" = "none") = False := by decide
  have hs2 : ("nickel" = "cent") = False := by decide
  have hs3 : ("nickel" = "dime") = False := by decide
  have hs4 : ("nickel" = "quarter") = False := by decide
  have hs5 : ("nickel" = "dollar") = False := by decide
  have h4 : ((4 : ℚ) > 0) = True := by norm_num
  simp only [distributeTipsRT, applyRoundingRT, ROUNDING_UNIT_RT, Option.getD,
    List.foldl_cons, List.foldl_nil, List.map_cons, List.map_nil, h4, zero_add,
    hs1, hs2, hs3, hs4, hs5, if_true, if_false, Option.map_none']
  norm_num [oAdd, oSub, sortByFracDescRT, insertByFracRT, List.replace_cons]
  intro h
  exact Option.noConfusion h

/-! ## Character-class facts and scan-step lemmas -/

theorem jsWs_false_of_jsDigit {c : Char} (h : jsDigit c = true) : jsWs c = false := by
  cases hjs : jsWs c with
  | false => rfl
  | true =>
    exfalso
    simp only [jsDigit, Bool.and_eq_true, decide_eq_true_eq] at h
    simp only [jsWs, Bool.or_eq_true, beq_iff_eq, Bool.and_eq_true, decide_eq_true_eq] at hjs
    omega

theorem jsWs_false_of_upperAlnum {c : Char} (h : upperAlnum c = true) : jsWs c = false := by
  cases hjs : jsWs c with
  | false => rfl
  | true =>
    exfalso
    simp only [upperAlnum, jsDigit, Bool.or_eq_true, Bool.and_eq_true, decide_eq_true_eq] at h
    simp only [jsWs, Bool.or_eq_true, beq_iff_eq, Bool.and_eq_true, decide_eq_true_eq] at hjs
    omega

theorem jsDot_of_not_ws {c : Char} (h : jsWs c = false) : jsDot c = true := by
  cases hjd : jsDot c with
  | true => rfl
  | false =>
    exfalso
    simp only [jsDot, Bool.not_eq_false', Bool.or_eq_true, beq_iff_eq] at hjd
    simp only [jsWs, Bool.or_eq_false_iff, Bool.and_eq_false_iff, beq_eq_false_iff_ne, ne_eq,
      decide_eq_false_iff_not] at h
    omega

theorem dropWhile_head_false {p : Char → Bool} {l : List Char} {c : Char}
    (h : (l.dropWhile p).head? = some c) : p c = false := by
  induction l with
  | nil => simp at h
  | cons a t ih =>
    rw [List.dropWhile_cons] at h
    by_cases hp : p a = true
    · rw [if_pos hp] at h
      exact ih h
    · rw [if_neg hp] at h
      simp only [List.head?_cons, Option.some.injEq] at h
      subst h
      exact Bool.not_eq_true _ ▸ Bool.of_not_eq_true hp

theorem takeWhile_append_stop {p : Char → Bool} {a b : List Char}
    (ha : a.all p = true) (hb : ∀ c, b.head? = some c → p c = false) :
    (a ++ b).takeWhile p = a ∧ (a ++ b).dropWhile p = b := by
  induction a with
  | nil =>
    simp only [List.nil_append]
    cases b with
    | nil => simp
    | cons c t =>
      have := hb c rfl
      constructor
      · exact List.takeWhile_cons_of_neg (by simp [this])
      · exact List.dropWhile_cons_of_neg (by simp [this])
  | cons x xs ih =>
    simp only [List.all_cons, Bool.and_eq_true] at ha
    obtain ⟨hx, hxs⟩ := ha
    obtain ⟨h1, h2⟩ := ih hxs
    constructor
    · simp only [List.cons_append, List.takeWhile_cons_of_pos hx, h1]
    · simp only [List.cons_append, List.dropWhile_cons_of_pos hx, h2]

theorem takeWhile_append_all {p : Char → Bool} {a b : List Char} (ha : a.all p = true) :
    (a ++ b).takeWhile p = a ++ b.takeWhile p ∧ (a ++ b).dropWhile p = b.dropWhile p := by
  induction a with
  | nil => simp
  | cons x xs ih =>
    simp only [List.all_cons, Bool.and_eq_true] at ha
    obtain ⟨hx, hxs⟩ := ha
    obtain ⟨h1, h2⟩ := ih hxs
    constructor
    · simp only [List.cons_append, List.takeWhile_cons_of_pos hx, h1]
    · simp only [List.cons_append, List.dropWhile_cons_of_pos hx, h2]

theorem all_takeWhile {p : Char → Bool} (l : List Char) : (l.takeWhile p).all p = true := by
  induction l with
  | nil => simp
  | cons x xs ih =>
    rw [List.takeWhile_cons]
    by_cases hp : p x = true
    · rw [if_pos hp]
      simp [hp, ih]
    · rw [if_neg hp]
      simp

/-! ## C8: shape of the captured dates -/

/-- Exact-match test for the date grammar `\d{1,2}/\d{1,2}/\d{2,4}` (the
shape of each captured bounding date). -/
def dateShaped (d : List Char) : Bool :=
  let a := d.takeWhile jsDigit
  let r := d.dropWhile jsDigit
  decide (1 ≤ a.length) && decide (a.length ≤ 2) &&
    (match r with
     | c1 :: r2 =>
       c1 == '/' &&
       (let b := r2.takeWhile jsDigit
        let r3 := r2.dropWhile jsDigit
        decide (1 ≤ b.length) && decide (b.length ≤ 2) &&
          (match r3 with
           | c2 :: y => c2 == '/' && y.all jsDigit && decide (2 ≤ y.length) && decide (y.length ≤ 4)
           | [] => false))
     | [] => false)

/-- The input contains a pair of date-shaped tokens separated (up to
whitespace) by a hyphen or an en-dash. -/
def ContainsDatePair (content : List Char) : Prop :=
  ∃ pre d1 w1 dash w2 d2 post,
    content = pre ++ d1 ++ w1 ++ dash :: w2 ++ d2 ++ post ∧
    dateShaped d1 = true ∧ dateShaped d2 = true ∧
    w1.all jsWs = true ∧ w2.all jsWs = true ∧ (dash = '-' ∨ dash = '–')

theorem all_take {p : Char → Bool} {l : List Char} (h : l.all p = true) (n : Nat) :
    (l.take n).all p = true := by
  rw [List.all_eq_true] at h ⊢
  intro x hx
  exact h x (List.take_subset n l hx)

theorem take_of_takeWhile {p : Char → Bool} {s : List Char} {n : Nat}
    (h : n ≤ (s.takeWhile p).length) : s.take n = (s.takeWhile p).take n := by
  conv_lhs => rw [← List.takeWhile_append_dropWhile (p := p) (l := s)]
  rw [List.take_append_of_le_length h]

theorem dateShaped_build {a b y : List Char}
    (ha : a.all jsDigit = true) (ha1 : 1 ≤ a.length) (ha2 : a.length ≤ 2)
    (hb : b.all jsDigit = true) (hb1 : 1 ≤ b.length) (hb2 : b.length ≤ 2)
    (hy : y.all jsDigit = true) (hy2 : 2 ≤ y.length) (hy4 : y.length ≤ 4) :
    dateShaped (a ++ '/' :: (b ++ '/' :: y)) = true := by
  have hslash : ∀ c : Char, (('/' :: (b ++ '/' :: y) : List Char)).head? = some c → jsDigit c = false := by
    intro c hc
    rw [List.head?_cons] at hc
    cases hc
    decide
  obtain ⟨ht1, hd1⟩ := takeWhile_append_stop ha hslash
  have hslash2 : ∀ c : Char, (('/' :: y : List Char)).head? = some c → jsDigit c = false := by
    intro c hc
    rw [List.head?_cons] at hc
    cases hc
    decide
  obtain ⟨ht2, hd2⟩ := takeWhile_append_stop hb hslash2
  rw [dateShaped]
  simp only [ht1, hd1, ht2, hd2]
  simp [ha1, ha2, hb1, hb2, hy, hy2, hy4]

theorem dateShaped_elim {d : List Char} (h : dateShaped d = true) :
    ∃ a b y, d = a ++ '/' :: (b ++ '/' :: y) ∧
      a.all jsDigit = true ∧ 1 ≤ a.length ∧ a.length ≤ 2 ∧
      b.all jsDigit = true ∧ 1 ≤ b.length ∧ b.length ≤ 2 ∧
      y.all jsDigit = true ∧ 2 ≤ y.length ∧ y.length ≤ 4 := by
  rw [dateShaped] at h
  simp only [Bool.and_eq_true, decide_eq_true_eq] at h
  obtain ⟨⟨ha1, ha2⟩, hrest⟩ := h
  cases hr : d.dropWhile jsDigit with
  | nil => rw [hr] at hrest; simp at hrest
  | cons c1 r2 =>
    rw [hr] at hrest
    simp only [Bool.and_eq_true, beq_iff_eq, decide_eq_true_eq] at hrest
    obtain ⟨hc1, ⟨hb1, hb2⟩, hrest2⟩ := hrest
    subst hc1
    cases hr3 : r2.dropWhile jsDigit with
    | nil => rw [hr3] at hrest2; simp at hrest2
    | cons c2 y =>
      rw [hr3] at hrest2
      simp only [Bool.and_eq_true, beq_iff_eq, decide_eq_true_eq] at hrest2
      obtain ⟨⟨⟨hc2, hy⟩, hy2⟩, hy4⟩ := hrest2
      subst hc2
      refine ⟨d.takeWhile jsDigit, r2.takeWhile jsDigit, y, ?_,
        all_takeWhile d, ha1, ha2, all_takeWhile r2, hb1, hb2, hy, hy2, hy4⟩
      conv_lhs => rw [← List.takeWhile_append_dropWhile (p := jsDigit) (l := d)]
      rw [hr]
      congr 1
      congr 1
      conv_lhs => rw [← List.takeWhile_append_dropWhile (p := jsDigit) (l := r2)]
      rw [hr3]

theorem matchDayMonthSlash_spec {s p r : List Char}
    (h : matchDayMonthSlash s = some (p, r)) :
    p.all jsDigit = true ∧ 1 ≤ p.length ∧ p.length ≤ 2 ∧ s = p ++ '/' :: r := by
  cases s with
  | nil => simp [matchDayMonthSlash] at h
  | cons a t =>
    cases t with
    | nil => simp [matchDayMonthSlash] at h
    | cons b t2 =>
      cases t2 with
      | nil =>
        simp only [matchDayMonthSlash] at h
        split at h
        · next hcond =>
          simp only [Bool.and_eq_true, beq_iff_eq] at hcond
          obtain ⟨ha, hb⟩ := hcond
          simp only [Option.some.injEq, Prod.mk.injEq] at h
          obtain ⟨rfl, rfl⟩ := h
          subst hb
          exact ⟨by simp [ha], by simp, by simp, rfl⟩
        · exact absurd h (by simp)
      | cons c r0 =>
        simp only [matchDayMonthSlash] at h
        split at h
        · next hcond =>
          simp only [Bool.and_eq_true, beq_iff_eq] at hcond
          obtain ⟨⟨ha, hb⟩, hc⟩ := hcond
          simp only [Option.some.injEq, Prod.mk.injEq] at h
          obtain ⟨rfl, rfl⟩ := h
          subst hc
          exact ⟨by simp [ha, hb], by simp, by simp, rfl⟩
        · split at h
          · next hcond =>
            simp only [Bool.and_eq_true, beq_iff_eq] at hcond
            obtain ⟨ha, hb⟩ := hcond
            simp only [Option.some.injEq, Prod.mk.injEq] at h
            obtain ⟨rfl, rfl⟩ := h
            subst hb
            exact ⟨by simp [ha], by simp, by simp, rfl⟩
          · exact absurd h (by simp)

theorem matchYearThen_spec {s : List Char}
    {k : List Char → List Char → Option (List Char × List Char)}
    {v : List Char × List Char} (h : matchYearThen s k = some v) :
    ∃ y r, k y r = some v ∧ y.all jsDigit = true ∧ 2 ≤ y.length ∧ y.length ≤ 4 ∧
      s = y ++ r := by
  rw [matchYearThen] at h
  have hmk : ∀ n, n ≤ (s.takeWhile jsDigit).length →
      ∃ y r, ((s.takeWhile jsDigit).take n = y ∧ s.drop n = r ∧
        y.all jsDigit = true ∧ y.length = n ∧ s = y ++ r) := by
    intro n hn
    refine ⟨(s.takeWhile jsDigit).take n, s.drop n, rfl, rfl,
      all_take (all_takeWhile s) n, ?_, ?_⟩
    · rw [List.length_take]
      omega
    · rw [← take_of_takeWhile hn, List.take_append_drop]
  have hcase : ∀ n : Nat, (if n ≤ (s.takeWhile jsDigit).length then
      k ((s.takeWhile jsDigit).take n) (s.drop n) else none) = some v →
      2 ≤ n → n ≤ 4 →
      ∃ y r, k y r = some v ∧ y.all jsDigit = true ∧ 2 ≤ y.length ∧ y.length ≤ 4 ∧
        s = y ++ r := by
    intro n hn h2 h4
    split at hn
    · next hlen =>
      obtain ⟨y, r, hy, hr, hall, hylen, hs⟩ := hmk n hlen
      exact ⟨y, r, by rw [← hy, ← hr]; exact hn, hall, by omega, by omega, hs⟩
    · exact absurd hn (by simp)
  rcases h4 : (if 4 ≤ (s.takeWhile jsDigit).length then
      k ((s.takeWhile jsDigit).take 4) (s.drop 4) else none) with _ | v4
  · rw [h4] at h
    simp only [Option.orElse] at h
    rcases h3 : (if 3 ≤ (s.takeWhile jsDigit).length then
        k ((s.takeWhile jsDigit).take 3) (s.drop 3) else none) with _ | v3
    · rw [h3] at h
      simp only [Option.orElse] at h
      exact hcase 2 h (by omega) (by omega)
    · rw [h3] at h
      simp only [Option.orElse] at h
      exact hcase 3 (h3.trans h) (by omega) (by omega)
  · rw [h4] at h
    simp only [Option.orElse] at h
    exact hcase 4 (h4.trans h) (by omega) (by omega)

theorem matchDateAt_shape {s d1 d2 : List Char}
    (h : matchDateAt s = some (d1, d2)) :
    dateShaped d1 = true ∧ dateShaped d2 = true := by
  rw [matchDateAt] at h
  cases h1 : matchDayMonthSlash s with
  | none => rw [h1] at h; simp at h
  | some pr1 =>
    obtain ⟨p1, r1⟩ := pr1
    rw [h1] at h
    dsimp only at h
    cases h2 : matchDayMonthSlash r1 with
    | none => rw [h2] at h; simp at h
    | some pr2 =>
      obtain ⟨p2, r2⟩ := pr2
      rw [h2] at h
      dsimp only at h
      obtain ⟨y1, r3, hk, hy1all, hy1a, hy1b, hr2⟩ := matchYearThen_spec h
      cases h5 : r3.dropWhile jsWs with
      | nil => rw [h5] at hk; simp at hk
      | cons dch r5 =>
        rw [h5] at hk
        dsimp only at hk
        split at hk
        · cases h6 : matchDayMonthSlash (r5.dropWhile jsWs) with
          | none => rw [h6] at hk; simp at hk
          | some pr3 =>
            obtain ⟨p3, r7⟩ := pr3
            rw [h6] at hk
            dsimp only at hk
            cases h7 : matchDayMonthSlash r7 with
            | none => rw [h7] at hk; simp at hk
            | some pr4 =>
              obtain ⟨p4, r8⟩ := pr4
              rw [h7] at hk
              dsimp only at hk
              split at hk
              · next hlen2 =>
                simp only [Option.some.injEq, Prod.mk.injEq] at hk
                obtain ⟨hkd1, hkd2⟩ := hk
                obtain ⟨hp1d, hp1a, hp1b, _⟩ := matchDayMonthSlash_spec h1
                obtain ⟨hp2d, hp2a, hp2b, _⟩ := matchDayMonthSlash_spec h2
                obtain ⟨hp3d, hp3a, hp3b, _⟩ := matchDayMonthSlash_spec h6
                obtain ⟨hp4d, hp4a, hp4b, _⟩ := matchDayMonthSlash_spec h7
                constructor
                · rw [← hkd1, List.append_assoc, List.cons_append]
                  exact dateShaped_build hp1d hp1a hp1b hp2d hp2a hp2b hy1all hy1a hy1b
                · rw [← hkd2, List.append_assoc, List.cons_append]
                  refine dateShaped_build hp3d hp3a hp3b hp4d hp4a hp4b
                    (all_take (all_takeWhile r8) 4) ?_ ?_
                  · rw [List.length_take]
                    omega
                  · rw [List.length_take]
                    omega
              · simp at hk
        · simp at hk

theorem mds_complete {p r : List Char} (hall : p.all jsDigit = true)
    (h1 : 1 ≤ p.length) (h2 : p.length ≤ 2) :
    matchDayMonthSlash (p ++ '/' :: r) = some (p, r) := by
  cases p with
  | nil => simp at h1
  | cons a t =>
    cases t with
    | nil =>
      simp only [List.all_cons, List.all_nil, Bool.and_true] at hall
      cases r with
      | nil =>
        show matchDayMonthSlash [a, '/'] = _
        rw [matchDayMonthSlash]
        simp [hall]
      | cons c r0 =>
        show matchDayMonthSlash (a :: '/' :: c :: r0) = _
        have hsd : jsDigit '/' = false := by decide
        rw [matchDayMonthSlash]
        rw [if_neg (by simp [hsd]), if_pos (by simp [hall])]
    | cons b t2 =>
      cases t2 with
      | nil =>
        simp only [List.all_cons, List.all_nil, Bool.and_true, Bool.and_eq_true] at hall
        show matchDayMonthSlash (a :: b :: '/' :: r) = _
        rw [matchDayMonthSlash]
        rw [if_pos (by simp [hall.1, hall.2])]
      | cons x t3 => simp at h2

theorem matchYearThen_complete {y T : List Char}
    {k : List Char → List Char → Option (List Char × List Char)}
    {v : List Char × List Char}
    (hall : y.all jsDigit = true) (h2 : 2 ≤ y.length) (h4 : y.length ≤ 4)
    (hT : ∀ c, T.head? = some c → jsDigit c = false)
    (hk : k y T = some v) : matchYearThen (y ++ T) k = some v := by
  obtain ⟨ht, _⟩ := takeWhile_append_stop hall hT
  rw [matchYearThen, ht]
  have hcases : y.length = 2 ∨ y.length = 3 ∨ y.length = 4 := by omega
  have htake : ∀ n, y.length = n → y.take n = y := by
    intro n hn
    rw [← hn]
    exact List.take_length y
  have hdrop : ∀ n, y.length = n → (y ++ T).drop n = T := by
    intro n hn
    rw [← hn]
    exact List.drop_left y T
  rcases hcases with hl | hl | hl
  · rw [if_neg (by omega), if_neg (by omega), if_pos (by omega),
      htake 2 hl, hdrop 2 hl, hk]
    rfl
  · rw [if_neg (by omega), if_pos (by omega), htake 3 hl, hdrop 3 hl, hk]
    rfl
  · rw [if_pos (by omega), htake 4 hl, hdrop 4 hl, hk]
    rfl

theorem findFirst_isSome {α : Type} {att : List Char → Option α} :
    ∀ (pre X : List Char), (att X).isSome = true →
    (findFirst att (pre ++ X)).isSome = true := by
  intro pre
  induction pre with
  | nil =>
    intro X hX
    cases X with
    | nil => exact hX
    | cons c t =>
      rw [List.nil_append, findFirst]
      cases hat : att (c :: t) with
      | none => rw [hat] at hX; simp at hX
      | some v => rfl
  | cons c pre ih =>
    intro X hX
    rw [List.cons_append, findFirst]
    cases hat : att (c :: (pre ++ X)) with
    | none => exact ih X hX
    | some v => rfl

theorem matchDateAt_complete {d1 w1 w2 d2 post : List Char} {dash : Char}
    (h1 : dateShaped d1 = true) (h2 : dateShaped d2 = true)
    (hw1 : w1.all jsWs = true) (hw2 : w2.all jsWs = true)
    (hdash : dash = '-' ∨ dash = '–') :
    (matchDateAt (d1 ++ (w1 ++ dash :: (w2 ++ (d2 ++ post))))).isSome = true := by
  obtain ⟨a1, b1, y1, hd1eq, ha1, ha11, ha12, hb1, hb11, hb12, hy1, hy12, hy14⟩ := dateShaped_elim h1
  obtain ⟨a2, b2, y2, hd2eq, ha2, ha21, ha22, hb2, hb21, hb22, hy2, hy22, hy24⟩ := dateShaped_elim h2
  subst hd1eq
  subst hd2eq
  simp only [List.append_assoc, List.cons_append]
  have hdashws : jsWs dash = false := by
    rcases hdash with rfl | rfl <;> decide
  have hdashdg : jsDigit dash = false := by
    rcases hdash with rfl | rfl <;> decide
  have hdashb : (dash == '-' || dash == '–') = true := by
    rcases hdash with rfl | rfl <;> decide
  have hTdrop : (w1 ++ dash :: (w2 ++ (a2 ++ '/' :: (b2 ++ '/' :: (y2 ++ post))))).dropWhile jsWs
      = dash :: (w2 ++ (a2 ++ '/' :: (b2 ++ '/' :: (y2 ++ post)))) := by
    refine (takeWhile_append_stop hw1 ?_).2
    intro c hc
    rw [List.head?_cons] at hc
    cases hc
    exact hdashws
  have ha2head : ∀ c, (a2 ++ '/' :: (b2 ++ '/' :: (y2 ++ post))).head? = some c → jsWs c = false := by
    intro c hc
    cases a2 with
    | nil => simp at ha21
    | cons x t =>
      rw [List.cons_append, List.head?_cons] at hc
      cases hc
      have hx : jsDigit c = true := by
        simp only [List.all_cons, Bool.and_eq_true] at ha2
        exact ha2.1
      exact jsWs_false_of_jsDigit hx
  have hw2drop : (w2 ++ (a2 ++ '/' :: (b2 ++ '/' :: (y2 ++ post)))).dropWhile jsWs
      = a2 ++ '/' :: (b2 ++ '/' :: (y2 ++ post)) := (takeWhile_append_stop hw2 ha2head).2
  have hrun2 : 2 ≤ ((y2 ++ post).takeWhile jsDigit).length := by
    obtain ⟨ht, _⟩ := takeWhile_append_all (b := post) hy2
    rw [ht, List.length_append]
    omega
  have hThead : ∀ c, (w1 ++ dash :: (w2 ++ (a2 ++ '/' :: (b2 ++ '/' :: (y2 ++ post))))).head? = some c →
      jsDigit c = false := by
    intro c hc
    cases w1 with
    | nil =>
      rw [List.nil_append, List.head?_cons] at hc
      cases hc
      exact hdashdg
    | cons x t =>
      rw [List.cons_append, List.head?_cons] at hc
      cases hc
      have hxws : jsWs c = true := by
        simp only [List.all_cons, Bool.and_eq_true] at hw1
        exact hw1.1
      cases hd : jsDigit c with
      | false => rfl
      | true => exact absurd hxws (by rw [jsWs_false_of_jsDigit hd]; simp)
  have hEq : matchDateAt (a1 ++ '/' :: (b1 ++ '/' :: (y1 ++ (w1 ++ dash :: (w2 ++ (a2 ++ '/' :: (b2 ++ '/' :: (y2 ++ post)))))))) =
      some (a1 ++ '/' :: b1 ++ '/' :: y1,
            a2 ++ '/' :: b2 ++ '/' :: (((y2 ++ post).takeWhile jsDigit).take 4)) := by
    rw [matchDateAt]
    rw [mds_complete ha1 ha11 ha12]
    dsimp only
    rw [mds_complete hb1 hb11 hb12]
    dsimp only
    apply matchYearThen_complete hy1 hy12 hy14 hThead
    dsimp only
    rw [hTdrop]
    dsimp only
    rw [if_pos hdashb, hw2drop]
    rw [mds_complete ha2 ha21 ha22]
    dsimp only
    rw [mds_complete hb2 hb21 hb22]
    dsimp only
    rw [if_pos hrun2]
  rw [hEq]
  rfl

theorem findFirst_spec {α : Type} {att : List Char → Option α} :
    ∀ {s : List Char} {v : α}, findFirst att s = some v → ∃ t, att t = some v := by
  intro s
  induction s with
  | nil => exact fun h => ⟨[], h⟩
  | cons c rest ih =>
    intro v h
    rw [findFirst] at h
    cases hat : att (c :: rest) with
    | none =>
      rw [hat] at h
      exact ih h
    | some w =>
      rw [hat] at h
      exact ⟨c :: rest, hat.trans h⟩

/-! ## C8: the claim theorems -/

/-- C8: the claim says both bounding dates are normalized to `MM/DD/YYYY`
with an en-dash separator.  Any string of that normalized form has exactly
21 characters; on the input `1/2/24-3/4/24` the emitted `time_period` is
`1/2/24–3/4/24` — the separator became an en-dash but the dates are verbatim,
13 characters in all, so the output is not of the claimed form. -/
theorem C8_counterexample :
    (parseContent ("1/2/24-3/4/24".toList)).timePeriod = some ("1/2/24–3/4/24".toList) ∧
    ("1/2/24–3/4/24".toList).length = 13 ∧ (13 : Nat) ≠ 21 :=
  ⟨rfl, rfl, by decide⟩

/-- C8 (amended): for every input containing a pair of `\d{1,2}/\d{1,2}/\d{2,4}`
dates separated (up to whitespace) by a hyphen or an en-dash, `time_period`
is emitted: the separator is normalized to an en-dash, and the two dates are
re-emitted verbatim in their original `\d{1,2}/\d{1,2}/\d{2,4}` shape (the
first such pair found, not necessarily the given one) — they are not
normalized to `MM/DD/YYYY`. -/
theorem C8_time_period (content : List Char) (hc : ContainsDatePair content) :
    ∃ e1 e2, (parseContent content).timePeriod = some (e1 ++ '–' :: e2) ∧
      dateShaped e1 = true ∧ dateShaped e2 = true := by
  obtain ⟨pre, d1, w1, dash, w2, d2, post, heq, h1, h2, hw1, hw2, hdash⟩ := hc
  have hsome : (findFirst matchDateAt content).isSome = true := by
    rw [heq]
    have hX := @matchDateAt_complete d1 w1 w2 d2 post dash h1 h2 hw1 hw2 hdash
    have hpre := findFirst_isSome pre (d1 ++ (w1 ++ dash :: (w2 ++ (d2 ++ post)))) hX
    simpa [List.append_assoc, List.cons_append] using hpre
  obtain ⟨v, hv⟩ := Option.isSome_iff_exists.mp hsome
  obtain ⟨e1, e2⟩ := v
  obtain ⟨t, ht⟩ := findFirst_spec hv
  obtain ⟨hs1, hs2⟩ := matchDateAt_shape ht
  refine ⟨e1, e2, ?_, hs1, hs2⟩
  show (findFirst matchDateAt content).map (fun d => d.1 ++ '–' :: d.2) = _
  rw [hv]
  rfl

/-- Witness for C8 (amended) on `1/2/24 – 3/4/24`. -/
theorem C8_time_period_witness :
    ContainsDatePair ("1/2/24 – 3/4/24".toList) ∧
    (∃ e1 e2, (parseContent ("1/2/24 – 3/4/24".toList)).timePeriod = some (e1 ++ '–' :: e2) ∧
      dateShaped e1 = true ∧ dateShaped e2 = true) := by
  have hc : ContainsDatePair ("1/2/24 – 3/4/24".toList) :=
    ⟨[], "1/2/24".toList, [' '], '–', [' '], "3/4/24".toList, [],
      by decide, by decide, by decide, by decide, by decide, Or.inr rfl⟩
  exact ⟨hc, C8_time_period _ hc⟩

/-! ## C7: the well-formed row grammar -/

/-- `<4-to-6-digit number>`. -/
def DigitsId (n : List Char) : Prop :=
  n.all jsDigit = true ∧ 4 ≤ n.length ∧ n.length ≤ 6

/-- A nonempty whitespace separator. -/
def WsBlock (w : List Char) : Prop := w ≠ [] ∧ w.all jsWs = true

/-- `<name>`: nonempty, trimmed (first and last characters are not
whitespace), interior characters matchable by `.`. -/
def NameShaped (nm : List Char) : Prop :=
  nm ≠ [] ∧ nm.dropLast.all jsDot = true ∧
    jsWs (nm.headD ' ') = false ∧ jsWs (nm.getLastD ' ') = false

/-- `<US-prefixed alphanumeric token>`: `US` followed by a nonempty
`[A-Z0-9]` run. -/
def GidShaped (g : List Char) : Prop :=
  ∃ t, g = 'U' :: 'S' :: t ∧ t ≠ [] ∧ t.all upperAlnum = true

/-- `<decimal with 0-2 fractional digits>`. -/
def DecShaped (h : List Char) : Prop :=
  (h ≠ [] ∧ h.all jsDigit = true) ∨
  (∃ ip fp, h = ip ++ '.' :: fp ∧ ip ≠ [] ∧ ip.all jsDigit = true ∧
    fp ≠ [] ∧ fp.length ≤ 2 ∧ fp.all jsDigit = true)

/-- The line has the well-formed shape
`<4-to-6-digit number> <name> <US token> <decimal>` with single
whitespace-run separators. -/
def IsWellFormedLine (l n nm g hrs : List Char) : Prop :=
  ∃ w1 w2 w3, l = n ++ (w1 ++ (nm ++ (w2 ++ (g ++ (w3 ++ hrs))))) ∧
    DigitsId n ∧ NameShaped nm ∧ GidShaped g ∧ DecShaped hrs ∧
    WsBlock w1 ∧ WsBlock w2 ∧ WsBlock w3

/-- The partner built from the four captures (as in the `partners.push`
call). -/
def mkPartner (x : List Char × List Char × List Char × List Char) : Partner :=
  { partner_number := x.1, name := x.2.1, partner_global_id := some x.2.2.1,
    hours := parseFloatQ x.2.2.2 }

/-- Join lines with a fixed line terminator. -/
def joinWith (sep : List Char) : List (List Char) → List Char
  | [] => []
  | [l] => l
  | l :: rest => l ++ sep ++ joinWith sep rest

theorem takeWhile_all {p : Char → Bool} {l : List Char} (h : l.all p = true) :
    l.takeWhile p = l ∧ l.dropWhile p = [] := by
  have := takeWhile_append_stop (b := []) h (by intro c hc; simp at hc)
  simpa using this

theorem isDecimal_iff {h : List Char} : isDecimal h = true ↔ DecShaped h := by
  constructor
  · intro hd
    rw [isDecimal] at hd
    obtain ⟨hip, hmatch⟩ := Bool.and_eq_true_iff.mp hd
    have hipne : h.takeWhile jsDigit ≠ [] := by
      simpa using hip
    cases hr : h.dropWhile jsDigit with
    | nil =>
      left
      have hh : h = h.takeWhile jsDigit := by
        conv_lhs => rw [← List.takeWhile_append_dropWhile (p := jsDigit) (l := h)]
        rw [hr, List.append_nil]
      constructor
      · rw [hh]
        exact hipne
      · rw [hh]
        exact all_takeWhile h
    | cons c fp =>
      rw [hr] at hmatch
      obtain ⟨⟨⟨hc, hfp⟩, hlen⟩, hall⟩ := by
        simpa only [Bool.and_eq_true] using hmatch
      right
      refine ⟨h.takeWhile jsDigit, fp, ?_, hipne, all_takeWhile h, by simpa using hfp,
        by simpa using hlen, hall⟩
      have hc' : c = '.' := by simpa using hc
      conv_lhs => rw [← List.takeWhile_append_dropWhile (p := jsDigit) (l := h)]
      rw [hr, hc']
  · intro hd
    rcases hd with ⟨hne, hall⟩ | ⟨ip, fp, heq, hipne, hipall, hfpne, hfplen, hfpall⟩
    · obtain ⟨ht, hdr⟩ := takeWhile_all hall
      rw [isDecimal, ht, hdr]
      simp [hne]
    · subst heq
      have hdot : ∀ c : Char, (('.' :: fp : List Char)).head? = some c → jsDigit c = false := by
        intro c hc
        rw [List.head?_cons] at hc
        cases hc
        decide
      obtain ⟨ht, hdr⟩ := takeWhile_append_stop hipall hdot
      rw [isDecimal, ht, hdr]
      simp [hipne, hfpne, hfplen, hfpall]

theorem isDecimal_head {h : List Char} (hd : isDecimal h = true) :
    h ≠ [] ∧ ∀ c, h.head? = some c → jsDigit c = true := by
  rw [isDecimal] at hd
  obtain ⟨hip, -⟩ := Bool.and_eq_true_iff.mp hd
  have hipne : h.takeWhile jsDigit ≠ [] := by simpa using hip
  cases h with
  | nil => simp at hipne
  | cons c t =>
    refine ⟨by simp, ?_⟩
    intro c' hc'
    rw [List.head?_cons] at hc'
    cases hc'
    by_contra hcd
    rw [List.takeWhile_cons_of_neg (by simpa using hcd)] at hipne
    exact hipne rfl

theorem partnerTail_complete {w2 t w3 hrs : List Char}
    (hw2 : WsBlock w2) (htne : t ≠ []) (htall : t.all upperAlnum = true)
    (hw3 : WsBlock w3) (hdec : isDecimal hrs = true) :
    partnerTail (w2 ++ 'U' :: 'S' :: (t ++ (w3 ++ hrs))) = some ('U' :: 'S' :: t, hrs) := by
  obtain ⟨hw2ne, hw2all⟩ := hw2
  obtain ⟨hw3ne, hw3all⟩ := hw3
  have hU : ∀ c : Char, (('U' :: 'S' :: (t ++ (w3 ++ hrs)) : List Char)).head? = some c → jsWs c = false := by
    intro c hc
    rw [List.head?_cons] at hc
    cases hc
    decide
  obtain ⟨hts, hds⟩ := takeWhile_append_stop hw2all hU
  have hw3head : ∀ c : Char, (w3 ++ hrs).head? = some c → upperAlnum c = false := by
    intro c hc
    cases w3 with
    | nil => exact absurd rfl hw3ne
    | cons x xs =>
      rw [List.cons_append, List.head?_cons] at hc
      cases hc
      have hcws : jsWs c = true := by
        simp only [List.all_cons, Bool.and_eq_true] at hw3all
        exact hw3all.1
      cases ha : upperAlnum c with
      | false => rfl
      | true => exact absurd hcws (by rw [jsWs_false_of_upperAlnum ha]; simp)
  obtain ⟨htg, hdg⟩ := takeWhile_append_stop htall hw3head
  obtain ⟨hhne, hhd⟩ := isDecimal_head hdec
  have hhrshead : ∀ c : Char, hrs.head? = some c → jsWs c = false :=
    fun c hc => jsWs_false_of_jsDigit (hhd c hc)
  obtain ⟨htw3, hdw3⟩ := takeWhile_append_stop hw3all hhrshead
  simp only [partnerTail, hts, hds]
  rw [if_neg hw2ne]
  rw [if_pos (by decide : (('U' : Char) == 'U' && ('S' : Char) == 'S') = true)]
  simp only [htg, hdg]
  rw [if_neg htne]
  simp only [htw3, hdw3]
  rw [if_neg hw3ne, if_pos hdec]

theorem partnerTail_spec {s g hrs : List Char} (h : partnerTail s = some (g, hrs)) :
    ∃ w2 t w3, s = w2 ++ 'U' :: 'S' :: (t ++ (w3 ++ hrs)) ∧
      g = 'U' :: 'S' :: t ∧ t ≠ [] ∧ t.all upperAlnum = true ∧
      WsBlock w2 ∧ WsBlock w3 ∧ isDecimal hrs = true := by
  rw [partnerTail] at h
  split at h
  · simp at h
  · next hw2ne =>
    cases hr : s.dropWhile jsWs with
    | nil => rw [hr] at h; simp at h
    | cons u rest1 =>
      cases rest1 with
      | nil => rw [hr] at h; simp at h
      | cons s2 r2 =>
        rw [hr] at h
        dsimp only at h
        split at h
        · next hUS =>
          simp only [Bool.and_eq_true, beq_iff_eq] at hUS
          obtain ⟨hu, hs2⟩ := hUS
          subst hu
          subst hs2
          split at h
          · simp at h
          · next hgne =>
            split at h
            · simp at h
            · next hw3ne =>
              split at h
              · next hdec =>
                simp only [Option.some.injEq, Prod.mk.injEq] at h
                obtain ⟨hg, hhrs⟩ := h
                subst hhrs
                refine ⟨s.takeWhile jsWs, r2.takeWhile upperAlnum,
                  (r2.dropWhile upperAlnum).takeWhile jsWs, ?_, ?_, hgne, all_takeWhile r2,
                  ⟨hw2ne, all_takeWhile s⟩, ⟨hw3ne, all_takeWhile _⟩, hdec⟩
                · conv_lhs => rw [← List.takeWhile_append_dropWhile (p := jsWs) (l := s)]
                  rw [hr]
                  congr 1
                  congr 2
                  conv_lhs => rw [← List.takeWhile_append_dropWhile (p := upperAlnum) (l := r2)]
                  congr 1
                  conv_lhs => rw [← List.takeWhile_append_dropWhile (p := jsWs) (l := r2.dropWhile upperAlnum)]
                · exact hg.symm
              · simp at h
        · simp at h

theorem nameSearch_spec :
    ∀ {s acc nm g hrs : List Char}, nameSearch acc s = some (nm, g, hrs) →
    ∃ body c rest, nm = acc ++ (body ++ [c]) ∧ s = body ++ c :: rest ∧
      body.all jsDot = true ∧ jsWs c = false ∧ partnerTail rest = some (g, hrs) := by
  intro s
  induction s with
  | nil => intro acc nm g hrs h; rw [nameSearch] at h; simp at h
  | cons c0 rest0 ih =>
    intro acc nm g hrs h
    rw [nameSearch] at h
    by_cases hws : jsWs c0 = true
    · rw [if_pos hws] at h
      by_cases hdot : jsDot c0 = true
      · rw [if_pos hdot] at h
        obtain ⟨body', c, rest, hnm, hs, hbody, hc, hpt⟩ := ih h
        refine ⟨c0 :: body', c, rest, ?_, ?_, ?_, hc, hpt⟩
        · rw [hnm]
          simp
        · rw [hs]
          simp
        · simp [hdot, hbody]
      · rw [if_neg hdot] at h
        simp at h
    · rw [if_neg hws] at h
      cases hpt : partnerTail rest0 with
      | some gh =>
        obtain ⟨g0, hrs0⟩ := gh
        rw [hpt] at h
        dsimp only at h
        simp only [Option.some.injEq, Prod.mk.injEq] at h
        obtain ⟨hnm, hg, hh⟩ := h
        refine ⟨[], c0, rest0, ?_, by simp, by simp, by simpa using hws, ?_⟩
        · rw [← hnm]
          simp
        · rw [hpt, hg, hh]
      | none =>
        rw [hpt] at h
        dsimp only at h
        by_cases hdot : jsDot c0 = true
        · rw [if_pos hdot] at h
          obtain ⟨body', c, rest, hnm, hs, hbody, hc, hpt2⟩ := ih h
          refine ⟨c0 :: body', c, rest, ?_, ?_, ?_, hc, hpt2⟩
          · rw [hnm]
            simp
          · rw [hs]
            simp
          · simp [hdot, hbody]
        · rw [if_neg hdot] at h
          simp at h

theorem nameSearch_complete :
    ∀ {body : List Char} {c : Char} {rest : List Char} (acc : List Char),
    body.all jsDot = true → jsWs c = false → (partnerTail rest).isSome = true →
    (nameSearch acc (body ++ c :: rest)).isSome = true := by
  intro body
  induction body with
  | nil =>
    intro c rest acc _ hc hpt
    rw [List.nil_append, nameSearch, if_neg (by simp [hc])]
    cases hp : partnerTail rest with
    | none => rw [hp] at hpt; simp at hpt
    | some gh => rfl
  | cons b body' ih =>
    intro c rest acc hall hc hpt
    have hb : jsDot b = true := by
      simp only [List.all_cons, Bool.and_eq_true] at hall
      exact hall.1
    have hall' : body'.all jsDot = true := by
      simp only [List.all_cons, Bool.and_eq_true] at hall
      exact hall.2
    rw [List.cons_append, nameSearch]
    by_cases hws : jsWs b = true
    · rw [if_pos hws, if_pos hb]
      exact ih _ hall' hc hpt
    · rw [if_neg hws]
      cases hp2 : partnerTail (body' ++ c :: rest) with
      | some gh => rfl
      | none =>
        dsimp only
        rw [if_pos hb]
        exact ih _ hall' hc hpt

theorem matchPartnerLine_spec {l n nm g hrs : List Char}
    (h : matchPartnerLine l = some (n, nm, g, hrs)) :
    IsWellFormedLine l n nm g hrs := by
  simp only [matchPartnerLine] at h
  split at h
  · next hlen =>
    split at h
    · simp at h
    · next hw1ne =>
      cases hns : nameSearch [] ((l.dropWhile jsDigit).dropWhile jsWs) with
      | none => rw [hns] at h; simp at h
      | some res =>
        rw [hns] at h
        obtain ⟨nm0, g0, hrs0⟩ := res
        simp only [Option.map_some', Option.some.injEq, Prod.mk.injEq] at h
        obtain ⟨hds, hnm, hg, hh⟩ := h
        obtain ⟨body, c, rest, hnmeq, hseq, hbody, hcws, hpt⟩ := nameSearch_spec hns
        obtain ⟨w2, t, w3, hresteq, hgeq, htne, htall, hw2, hw3, hdec⟩ := partnerTail_spec hpt
        rw [List.nil_append] at hnmeq
        subst hds
        subst hnm
        subst hg
        subst hh
        subst hnmeq
        subst hgeq
        refine ⟨(l.dropWhile jsDigit).takeWhile jsWs, w2, w3, ?_, ?_, ?_, ?_, ?_,
          ⟨hw1ne, all_takeWhile _⟩, hw2, hw3⟩
        · conv_lhs => rw [← List.takeWhile_append_dropWhile (p := jsDigit) (l := l)]
          congr 1
          conv_lhs => rw [← List.takeWhile_append_dropWhile (p := jsWs) (l := l.dropWhile jsDigit)]
          congr 1
          rw [hseq, hresteq]
          simp [List.append_assoc, List.cons_append]
        · exact ⟨all_takeWhile l, hlen.1, hlen.2⟩
        · refine ⟨by simp, ?_, ?_, ?_⟩
          · rw [List.dropLast_concat]
            exact hbody
          · cases body with
            | nil => simpa using hcws
            | cons b bs =>
              have hhead : ((l.dropWhile jsDigit).dropWhile jsWs).head? = some b := by
                rw [hseq]
                rfl
              simpa using dropWhile_head_false hhead
          · rw [List.getLastD_eq_getLast?, List.getLast?_concat]
            exact hcws
        · exact ⟨t, rfl, htne, htall⟩
        · exact isDecimal_iff.mp hdec
  · simp at h

theorem unique_span {p : Char → Bool} {A B A' B' : List Char}
    (h : A ++ B = A' ++ B') (hA : A.all p = true) (hA' : A'.all p = true)
    (hB : ∀ c, B.head? = some c → p c = false)
    (hB' : ∀ c, B'.head? = some c → p c = false) : A = A' ∧ B = B' := by
  have h1 := takeWhile_append_stop hA hB
  have h2 := takeWhile_append_stop hA' hB'
  constructor
  · rw [← h1.1, ← h2.1, h]
  · rw [← h1.2, ← h2.2, h]

theorem head_append_all {p : Char → Bool} {A Y : List Char}
    (hne : A ≠ []) (hall : A.all p = true) :
    ∀ c, (A ++ Y).head? = some c → p c = true := by
  intro c hc
  cases A with
  | nil => exact absurd rfl hne
  | cons x xs =>
    rw [List.cons_append, List.head?_cons] at hc
    cases hc
    simp only [List.all_cons, Bool.and_eq_true] at hall
    exact hall.1

theorem not_digit_of_ws {c : Char} (h : jsWs c = true) : jsDigit c = false := by
  cases hd : jsDigit c with
  | false => rfl
  | true => exact absurd h (by rw [jsWs_false_of_jsDigit hd]; simp)

theorem not_ws_of_alnum {c : Char} (h : upperAlnum c = true) : jsWs c = false :=
  jsWs_false_of_upperAlnum h

theorem all_reverse_iff {p : Char → Bool} {l : List Char} :
    l.reverse.all p = true ↔ l.all p = true := by
  simp [List.all_eq_true, List.mem_reverse]

theorem decShaped_ne_nil {h : List Char} (hd : DecShaped h) : h ≠ [] := by
  rcases hd with ⟨hne, -⟩ | ⟨ip, fp, heq, hipne, -⟩
  · exact hne
  · subst heq
    cases ip with
    | nil => exact absurd rfl hipne
    | cons x xs => simp

theorem decShaped_not_ws {h : List Char} (hd : DecShaped h) :
    h.all (fun c => !jsWs c) = true := by
  rw [List.all_eq_true]
  intro c hc
  rcases hd with ⟨-, hall⟩ | ⟨ip, fp, heq, -, hipall, -, -, hfpall⟩
  · have := List.all_eq_true.mp hall c hc
    simp [jsWs_false_of_jsDigit this]
  · subst heq
    rcases List.mem_append.mp hc with hm | hm
    · have := List.all_eq_true.mp hipall c hm
      simp [jsWs_false_of_jsDigit this]
    · rcases List.mem_cons.mp hm with rfl | hm2
      · decide
      · have := List.all_eq_true.mp hfpall c hm2
        simp [jsWs_false_of_jsDigit this]

theorem gidShaped_ne_nil {g : List Char} (hg : GidShaped g) : g ≠ [] := by
  obtain ⟨t, rfl, -, -⟩ := hg
  simp

theorem gidShaped_not_ws {g : List Char} (hg : GidShaped g) :
    g.all (fun c => !jsWs c) = true := by
  obtain ⟨t, rfl, -, htall⟩ := hg
  rw [List.all_eq_true]
  intro c hc
  rcases List.mem_cons.mp hc with rfl | hc2
  · decide
  · rcases List.mem_cons.mp hc2 with rfl | hc3
    · decide
    · have := List.all_eq_true.mp htall c hc3
      simp [jsWs_false_of_upperAlnum this]

theorem nameShaped_last_not_ws {nm : List Char} (hn : NameShaped nm) :
    ∀ c, nm.getLast? = some c → jsWs c = false := by
  intro c hc
  obtain ⟨hne, -, -, hlast⟩ := hn
  rw [List.getLastD_eq_getLast?, hc] at hlast
  exact hlast

theorem nameShaped_head_not_ws {nm : List Char} (hn : NameShaped nm) :
    ∀ c, nm.head? = some c → jsWs c = false := by
  intro c hc
  obtain ⟨hne, -, hhead, -⟩ := hn
  cases nm with
  | nil => simp at hc
  | cons x xs =>
    rw [List.head?_cons] at hc
    cases hc
    simpa using hhead

theorem head_append_of_ne_nil {A Y : List Char} (hne : A ≠ []) :
    (A ++ Y).head? = A.head? := by
  cases A with
  | nil => exact absurd rfl hne
  | cons x xs => rfl

theorem reverse_ne_nil {A : List Char} (h : A ≠ []) : A.reverse ≠ [] :=
  mt List.reverse_eq_nil_iff.mp h

theorem wellFormed_unique {l n nm g hrs n' nm' g' hrs' : List Char}
    (h1 : IsWellFormedLine l n nm g hrs)
    (h2 : IsWellFormedLine l n' nm' g' hrs') :
    n = n' ∧ nm = nm' ∧ g = g' ∧ hrs = hrs' := by
  obtain ⟨w1, w2, w3, hl, hn, hnm, hg, hh, hw1, hw2, hw3⟩ := h1
  obtain ⟨v1, v2, v3, hl', hn', hnm', hg', hh', hv1, hv2, hv3⟩ := h2
  have heq := hl.symm.trans hl'
  obtain ⟨hneq, heq2⟩ := unique_span heq hn.1 hn'.1
    (fun c hc => not_digit_of_ws (head_append_all hw1.1 hw1.2 c hc))
    (fun c hc => not_digit_of_ws (head_append_all hv1.1 hv1.2 c hc))
  obtain ⟨-, heq3⟩ := unique_span heq2 hw1.2 hv1.2
    (fun c hc => nameShaped_head_not_ws hnm c
      (by rwa [head_append_of_ne_nil hnm.1] at hc))
    (fun c hc => nameShaped_head_not_ws hnm' c
      (by rwa [head_append_of_ne_nil hnm'.1] at hc))
  have heq4 := congrArg List.reverse heq3
  simp only [List.reverse_append, List.append_assoc] at heq4
  obtain ⟨hhrseq, heq5⟩ := unique_span heq4
    (all_reverse_iff.mpr (decShaped_not_ws hh))
    (all_reverse_iff.mpr (decShaped_not_ws hh'))
    (fun c hc => by
      have := head_append_all (reverse_ne_nil hw3.1)
        (all_reverse_iff.mpr hw3.2) c hc
      simp [this])
    (fun c hc => by
      have := head_append_all (reverse_ne_nil hv3.1)
        (all_reverse_iff.mpr hv3.2) c hc
      simp [this])
  obtain ⟨-, heq6⟩ := unique_span heq5
    (all_reverse_iff.mpr hw3.2) (all_reverse_iff.mpr hv3.2)
    (fun c hc => by
      have := head_append_all (reverse_ne_nil (gidShaped_ne_nil hg))
        (all_reverse_iff.mpr (gidShaped_not_ws hg)) c hc
      simpa using this)
    (fun c hc => by
      have := head_append_all (reverse_ne_nil (gidShaped_ne_nil hg'))
        (all_reverse_iff.mpr (gidShaped_not_ws hg')) c hc
      simpa using this)
  obtain ⟨hgeq, heq7⟩ := unique_span heq6
    (all_reverse_iff.mpr (gidShaped_not_ws hg))
    (all_reverse_iff.mpr (gidShaped_not_ws hg'))
    (fun c hc => by
      have := head_append_all (reverse_ne_nil hw2.1)
        (all_reverse_iff.mpr hw2.2) c hc
      simp [this])
    (fun c hc => by
      have := head_append_all (reverse_ne_nil hv2.1)
        (all_reverse_iff.mpr hv2.2) c hc
      simp [this])
  obtain ⟨-, heq8⟩ := unique_span heq7
    (all_reverse_iff.mpr hw2.2) (all_reverse_iff.mpr hv2.2)
    (fun c hc => nameShaped_last_not_ws hnm c
      (by rwa [List.head?_reverse] at hc))
    (fun c hc => nameShaped_last_not_ws hnm' c
      (by rwa [List.head?_reverse] at hc))
  exact ⟨hneq, List.reverse_injective heq8, List.reverse_injective hgeq,
    List.reverse_injective hhrseq⟩

theorem matchPartnerLine_complete {l n nm g hrs : List Char}
    (h : IsWellFormedLine l n nm g hrs) : (matchPartnerLine l).isSome = true := by
  obtain ⟨w1, w2, w3, hl, hn, hnm, hg, hh, hw1, hw2, hw3⟩ := h
  subst hl
  have hstop1 : ∀ c, (w1 ++ (nm ++ (w2 ++ (g ++ (w3 ++ hrs))))).head? = some c →
      jsDigit c = false :=
    fun c hc => not_digit_of_ws (head_append_all hw1.1 hw1.2 c hc)
  have hstop2 : ∀ c, (nm ++ (w2 ++ (g ++ (w3 ++ hrs)))).head? = some c →
      jsWs c = false :=
    fun c hc => nameShaped_head_not_ws hnm c
      (by rwa [head_append_of_ne_nil hnm.1] at hc)
  obtain ⟨hds, hr1⟩ := takeWhile_append_stop hn.1 hstop1
  obtain ⟨hw1t, hw1d⟩ := takeWhile_append_stop hw1.2 hstop2
  have hne := hnm.1
  have hdecomp : nm.dropLast ++ [nm.getLast hne] = nm :=
    List.dropLast_append_getLast hne
  have hclast : jsWs (nm.getLast hne) = false := by
    have hlast := hnm.2.2.2
    rwa [List.getLastD_eq_getLast?, List.getLast?_eq_getLast nm hne,
      Option.getD_some] at hlast
  obtain ⟨t, hgeq, htne, htall⟩ := hg
  have hpt : (partnerTail (w2 ++ (g ++ (w3 ++ hrs)))).isSome = true := by
    rw [show w2 ++ (g ++ (w3 ++ hrs)) = w2 ++ 'U' :: 'S' :: (t ++ (w3 ++ hrs)) from
      by rw [hgeq]; simp,
      partnerTail_complete hw2 htne htall hw3 (isDecimal_iff.mpr hh)]
    rfl
  have key := nameSearch_complete [] hnm.2.1 hclast hpt
  have hsplit : nm ++ (w2 ++ (g ++ (w3 ++ hrs))) =
      nm.dropLast ++ (nm.getLast hne) :: (w2 ++ (g ++ (w3 ++ hrs))) := by
    conv_lhs => rw [← hdecomp]
    simp
  simp only [matchPartnerLine]
  rw [hds, hr1, if_pos ⟨hn.2.1, hn.2.2⟩, hw1t, hw1d, if_neg hw1.1, hsplit]
  cases hns : nameSearch [] (nm.dropLast ++ (nm.getLast hne) ::
      (w2 ++ (g ++ (w3 ++ hrs)))) with
  | none => rw [hns] at key; exact absurd key (by simp)
  | some x => rfl

theorem matchPartnerLine_wf {l n nm g hrs : List Char} :
    matchPartnerLine l = some (n, nm, g, hrs) ↔ IsWellFormedLine l n nm g hrs := by
  constructor
  · exact matchPartnerLine_spec
  · intro h
    have hsome := matchPartnerLine_complete h
    cases hml : matchPartnerLine l with
    | none => rw [hml] at hsome; exact absurd hsome (by simp)
    | some res =>
      obtain ⟨n', nm', g', hrs'⟩ := res
      have h' := matchPartnerLine_spec hml
      obtain ⟨e1, e2, e3, e4⟩ := wellFormed_unique h' h
      rw [e1, e2, e3, e4]

theorem dropWhile_eq_self {p : Char → Bool} {l : List Char}
    (h : ∀ c, l.head? = some c → p c = false) : l.dropWhile p = l := by
  cases l with
  | nil => rfl
  | cons x xs => rw [List.dropWhile_cons, if_neg (by simp [h x rfl])]

theorem wellFormed_trim {l n nm g hrs : List Char}
    (h : IsWellFormedLine l n nm g hrs) : jsTrim l = l := by
  obtain ⟨w1, w2, w3, hl, hn, hnm, hg, hh, hw1, hw2, hw3⟩ := h
  have hnne : n ≠ [] :=
    List.ne_nil_of_length_pos (lt_of_lt_of_le (by norm_num) hn.2.1)
  have hhead : ∀ c, l.head? = some c → jsWs c = false := by
    intro c hc
    rw [hl] at hc
    have hd := head_append_all hnne hn.1 c hc
    cases hw : jsWs c with
    | false => rfl
    | true => exact absurd hw (by rw [jsWs_false_of_jsDigit hd]; simp)
  have hrev : ∀ c, l.reverse.head? = some c → jsWs c = false := by
    intro c hc
    have hlrev : l.reverse = hrs.reverse ++ (w3.reverse ++ (g.reverse ++
        (w2.reverse ++ (nm.reverse ++ (w1.reverse ++ n.reverse))))) := by
      rw [hl]; simp [List.reverse_append, List.append_assoc]
    rw [hlrev] at hc
    have := head_append_all (reverse_ne_nil (decShaped_ne_nil hh))
      (all_reverse_iff.mpr (decShaped_not_ws hh)) c hc
    simpa using this
  rw [jsTrim, dropWhile_eq_self hhead, dropWhile_eq_self hrev,
    List.reverse_reverse]

theorem matchPartnerLine_nil : matchPartnerLine [] = none := by
  simp [matchPartnerLine]

theorem splitNL_no_nl {l : List Char} (h : '\n' ∉ l) : splitNL l = [l] := by
  induction l with
  | nil => rfl
  | cons c rest ih =>
    have hc : c ≠ '\n' := fun he => h (he ▸ List.mem_cons_self c rest)
    rw [splitNL, if_neg (by simp [hc]),
      ih (fun hm => h (List.mem_cons_of_mem c hm))]

theorem splitNL_append {l s : List Char} (h : '\n' ∉ l) :
    splitNL (l ++ '\n' :: s) = l :: splitNL s := by
  induction l with
  | nil =>
    rw [List.nil_append, splitNL, if_pos (by decide)]
  | cons c rest ih =>
    have hc : c ≠ '\n' := fun he => h (he ▸ List.mem_cons_self c rest)
    rw [List.cons_append, splitNL, if_neg (by simp [hc]),
      ih (fun hm => h (List.mem_cons_of_mem c hm))]

theorem stripCR_eq_self {l : List Char} (h : '\r' ∉ l) : stripCR l = l := by
  rw [stripCR]
  cases hg : l.getLast? with
  | none => rw [if_neg (by simp)]
  | some c =>
    have hcm : c ∈ l := List.mem_of_mem_getLast? hg
    have : c ≠ '\r' := fun he => h (he ▸ hcm)
    rw [if_neg (by simp [this])]

theorem splitLines_join_lf {lines : List (List Char)}
    (h : ∀ l ∈ lines, '\n' ∉ l ∧ '\r' ∉ l) (hne : lines ≠ []) :
    splitLines (joinWith ['\n'] lines) = lines := by
  induction lines with
  | nil => exact absurd rfl hne
  | cons l rest ih =>
    cases rest with
    | nil =>
      show splitLines l = [l]
      rw [splitLines, splitNL_no_nl (h l (by simp)).1, List.map_cons,
        List.map_nil, stripCR_eq_self (h l (by simp)).2]
    | cons l2 rest2 =>
      have hjoin : joinWith ['\n'] (l :: l2 :: rest2)
          = l ++ '\n' :: joinWith ['\n'] (l2 :: rest2) := by
        show l ++ ['\n'] ++ joinWith ['\n'] (l2 :: rest2) = _
        simp
      have hrest := ih (fun x hx => h x (by simp [hx])) (by simp)
      rw [splitLines] at hrest
      rw [splitLines, hjoin, splitNL_append (h l (by simp)).1, List.map_cons,
        stripCR_eq_self (h l (by simp)).2, hrest]

theorem splitLines_join_crlf {lines : List (List Char)}
    (h : ∀ l ∈ lines, '\n' ∉ l ∧ '\r' ∉ l) (hne : lines ≠ []) :
    splitLines (joinWith ['\r', '\n'] lines) = lines := by
  induction lines with
  | nil => exact absurd rfl hne
  | cons l rest ih =>
    cases rest with
    | nil =>
      show splitLines l = [l]
      rw [splitLines, splitNL_no_nl (h l (by simp)).1, List.map_cons,
        List.map_nil, stripCR_eq_self (h l (by simp)).2]
    | cons l2 rest2 =>
      have hjoin : joinWith ['\r', '\n'] (l :: l2 :: rest2)
          = (l ++ ['\r']) ++ '\n' :: joinWith ['\r', '\n'] (l2 :: rest2) := by
        show l ++ ['\r', '\n'] ++ joinWith ['\r', '\n'] (l2 :: rest2) = _
        simp
      have hnl : '\n' ∉ l ++ ['\r'] := by
        simp [(h l (by simp)).1]
      have hstrip : stripCR (l ++ ['\r']) = l := by
        rw [stripCR, List.getLast?_concat, if_pos (by decide)]
        exact List.dropLast_concat
      have hrest := ih (fun x hx => h x (by simp [hx])) (by simp)
      rw [splitLines] at hrest
      rw [splitLines, hjoin, splitNL_append hnl, List.map_cons, hstrip, hrest]

theorem filterMap_filter_of_none {α β : Type} (p : α → Bool) (f : α → Option β)
    (h : ∀ a, p a = false → f a = none) :
    ∀ l : List α, (l.filter p).filterMap f = l.filterMap f := by
  intro l
  induction l with
  | nil => rfl
  | cons x xs ih =>
    cases hp : p x with
    | false => simp [List.filter_cons, hp, List.filterMap_cons, h x hp, ih]
    | true => simp [List.filter_cons, hp, List.filterMap_cons, ih]

theorem parseContent_partners_eq (content : List Char) :
    (parseContent content).partners
      = (splitLines content).filterMap
          (fun l => (matchPartnerLine (jsTrim l)).map mkPartner) := by
  show (((splitLines content).map jsTrim).filter (fun l => !l.isEmpty)).filterMap
      (fun line => (matchPartnerLine line).map mkPartner) = _
  rw [filterMap_filter_of_none _ _ ?_, List.filterMap_map]
  · rfl
  · intro l hl
    have hnil : l = [] := by
      cases l with
      | nil => rfl
      | cons x xs => simp at hl
    rw [hnil, matchPartnerLine_nil]
    rfl

/-- C7: for every input text presented as a list of newline-free lines, the
extractors recover the partner rows line by line, identically for `\n` and
`\r\n` joining and identically in `parseContent` and `parseManualText`; the
per-line contribution is exactly one partner with the four captured fields
when the line has the well-formed shape
`<4-to-6-digit number> <name> <US token> <decimal with 0-2 fractional
digits>` (such a line is already trimmed, so surrounding-whitespace handling
cannot disturb it), and nothing when the line admits no such decomposition
(in particular a blank line contributes nothing). -/
theorem C7_line_extraction (lines : List (List Char))
    (hl : ∀ l ∈ lines, '\n' ∉ l ∧ '\r' ∉ l) (hne : lines ≠ []) :
    ((parseContent (joinWith ['\r', '\n'] lines)).partners
        = (parseContent (joinWith ['\n'] lines)).partners)
    ∧ ((parseManualText (joinWith ['\n'] lines)).partners
        = (parseContent (joinWith ['\n'] lines)).partners)
    ∧ ((parseContent (joinWith ['\n'] lines)).partners
        = lines.filterMap (fun l => (matchPartnerLine (jsTrim l)).map mkPartner))
    ∧ (∀ l n nm g hrs, IsWellFormedLine l n nm g hrs →
        jsTrim l = l ∧
          (matchPartnerLine l).map mkPartner = some (mkPartner (n, nm, g, hrs)))
    ∧ (∀ l, (∀ n nm g hrs, ¬ IsWellFormedLine l n nm g hrs) →
        (matchPartnerLine l).map mkPartner = none) := by
  refine ⟨?_, rfl, ?_, ?_, ?_⟩
  · rw [parseContent_partners_eq, parseContent_partners_eq,
      splitLines_join_crlf hl hne, splitLines_join_lf hl hne]
  · rw [parseContent_partners_eq, splitLines_join_lf hl hne]
  · intro l n nm g hrs h
    refine ⟨wellFormed_trim h, ?_⟩
    rw [matchPartnerLine_wf.mpr h]
    rfl
  · intro l hno
    cases hml : matchPartnerLine l with
    | none => rfl
    | some res =>
      obtain ⟨a, b, c, d⟩ := res
      exact absurd (matchPartnerLine_spec hml) (hno a b c d)

theorem C7_line_extraction_witness :
    (parseContent (joinWith ['\r', '\n']
        ["12345 Smith, Alex J US98765432 31.45".toList,
         "not a partner row".toList])).partners
      = (parseContent (joinWith ['\n']
        ["12345 Smith, Alex J US98765432 31.45".toList,
         "not a partner row".toList])).partners :=
  (C7_line_extraction
    ["12345 Smith, Alex J US98765432 31.45".toList,
     "not a partner row".toList] (by decide) (by decide)).1
